import Mathlib

/-!
# Verification of the ADExplorer snapshot treeview enrichment engine

This file gives a shallow embedding, in Lean 4, of the core algorithms of the
ADExplorerSnapshot repository:

* `get_parent_dn` and `build_nc_tree` (adexpsnapshot/section_encoder_clean.py),
* `encode_section` (same module) together with the `ParentNode` wire layout
  (adexpsnapshot/treeview/structure.py),
* `create_synthetic_object` / `create_synthetic_objects_data`
  (adexpsnapshot/treeview/synthetic.py),
* the DN-cache construction of `ADExplorerSnapshot.preprocess`
  (adexpsnapshot/__init__.py),
* `check_treeview_exists`, `get_output_filename` and `enrich_snapshot`
  (adexpsnapshot/enrich.py).

Python strings are modelled as `List Char`, byte strings as `List Nat`
(each element a byte value), dictionaries as insertion-ordered association
lists, and exceptions as `Except`.  Machine integers are `Nat`/`Int` with
explicit `% 2^w` at the serialization boundary, mirroring `struct.pack`.
-/

/-! ## Byte-level helpers (struct.pack/unpack "<I", "<Q" little endian) -/

/-- Little-endian 4-byte encoding of a natural number (`struct.pack "<I"`,
with wrap-around made explicit). -/
def le32 (v : Nat) : List Nat :=
  [v % 256, v / 256 % 256, v / 256 ^ 2 % 256, v / 256 ^ 3 % 256]

/-- Little-endian 8-byte encoding of a natural number (`struct.pack "<Q"`). -/
def le64 (v : Nat) : List Nat :=
  [v % 256, v / 256 % 256, v / 256 ^ 2 % 256, v / 256 ^ 3 % 256,
   v / 256 ^ 4 % 256, v / 256 ^ 5 % 256, v / 256 ^ 6 % 256, v / 256 ^ 7 % 256]

/-- Value of a little-endian byte list. -/
def leToNat (l : List Nat) : Nat := l.foldr (fun b acc => b + 256 * acc) 0

/-- Read a little-endian `uint32` at byte position `i` of a byte list
(`struct.unpack "<I"` on a 4-byte read; a short read yields the value of the
bytes that are present). -/
def readLE32 (bs : List Nat) (i : Nat) : Nat := leToNat ((bs.drop i).take 4)

/-- Read a little-endian `uint64` at byte position `i` of a byte list. -/
def readLE64 (bs : List Nat) (i : Nat) : Nat := leToNat ((bs.drop i).take 8)

/-- In-place little-endian `uint64` write at byte position `i`
(`struct.pack_into "<Q"`; the caller guards `i + 8 ≤ bs.length`). -/
def writeLE64 (bs : List Nat) (i v : Nat) : List Nat :=
  bs.take i ++ le64 v ++ bs.drop (i + 8)

theorem leToNat_le64 (v : Nat) : leToNat (le64 v) = v % 2 ^ 64 := by
  simp [le64, leToNat]; omega

theorem leToNat_le32 (v : Nat) : leToNat (le32 v) = v % 2 ^ 32 := by
  simp [le32, leToNat]; omega

theorem le64_length (v : Nat) : (le64 v).length = 8 := rfl

theorem le32_length (v : Nat) : (le32 v).length = 4 := rfl

theorem writeLE64_length (bs : List Nat) (i v : Nat) (h : i + 8 ≤ bs.length) :
    (writeLE64 bs i v).length = bs.length := by
  simp [writeLE64, le64]
  omega

theorem take_length_of_le {bs : List Nat} {i : Nat} (h : i ≤ bs.length) :
    (bs.take i).length = i := by
  rw [List.length_take]; omega

theorem readLE64_writeLE64 (bs : List Nat) (i v : Nat) (h : i + 8 ≤ bs.length) :
    readLE64 (writeLE64 bs i v) i = v % 2 ^ 64 := by
  have htake : (bs.take i).length = i := take_length_of_le (by omega)
  have h1 : (writeLE64 bs i v).drop i = le64 v ++ bs.drop (i + 8) := by
    rw [writeLE64, List.append_assoc, List.drop_left' htake]
  have h2 : ((le64 v ++ bs.drop (i + 8)).take 8) = le64 v :=
    List.take_left' (le64_length v)
  rw [readLE64, h1, h2, leToNat_le64]

/-- Reading below an in-place write sees the written prefix unchanged. -/
theorem writeLE64_take (bs : List Nat) (i v : Nat) (h : i + 8 ≤ bs.length) :
    (writeLE64 bs i v).take i = bs.take i := by
  rw [writeLE64, List.append_assoc, List.take_left' (take_length_of_le (by omega))]

/-! ## get_parent_dn (section_encoder_clean.py, lines 42-54)

Scans the DN left to right for the first comma that is not immediately
preceded by a backslash; the parent is the remainder after that comma
(`None` when the comma is the final character or when no unescaped comma
exists). `prev` carries the previously seen character (`none` at position 0).
-/

/-- The escape condition of the scan: a comma splits when the previous
character (if any) is not a backslash (`i == 0 or dn[i-1] != '\\'`). -/
def escOK : Option Char → Bool
  | none => true
  | some p => p ≠ '\\'

/-- The character scan of `get_parent_dn`. -/
def gpdAux (prev : Option Char) : List Char → Option (List Char)
  | [] => none
  | c :: rest =>
    if c = ',' ∧ escOK prev then
      if rest = [] then none else some rest
    else gpdAux (some c) rest

/-- `get_parent_dn` from section_encoder_clean.py. -/
def get_parent_dn (dn : List Char) : Option (List Char) := gpdAux none dn

theorem gpdAux_length : ∀ (dn : List Char) (prev : Option Char) (p : List Char),
    gpdAux prev dn = some p → p.length < dn.length ∧ p ≠ [] := by
  intro dn
  induction dn with
  | nil => intro prev p h; simp [gpdAux] at h
  | cons c rest ih =>
    intro prev p h
    simp only [gpdAux] at h
    split at h
    · split at h
      · simp at h
      · rename_i h2
        cases h
        exact ⟨by simp [Nat.lt_succ_iff], h2⟩
    · have := ih (some c) p h
      exact ⟨Nat.lt_trans this.1 (by simp), this.2⟩

theorem gpd_length {dn p : List Char} (h : get_parent_dn dn = some p) :
    p.length < dn.length ∧ p ≠ [] :=
  gpdAux_length dn none p h

/-! Specification-side characterization of the scan: `hasUC prev l` says that
the scan of `l` (entered with previous character `prev`) meets an unescaped
comma somewhere. -/

/-- `l` contains an unescaped comma, where the character before `l.head` is
`prev`. -/
def hasUC (prev : Option Char) : List Char → Bool
  | [] => false
  | c :: rest => (c = ',' && escOK prev) || hasUC (some c) rest

/-- The character immediately preceding the end of the scanned part, or
`prev` when that part is empty. -/
def lastOr (prev : Option Char) : List Char → Option Char
  | [] => prev
  | c :: rest => lastOr (some c) rest

/-- Completeness half: if a decomposition at an unescaped comma with no
earlier unescaped comma exists, the scan returns exactly its tail. -/
theorem gpdAux_of_split : ∀ (pre : List Char) (prev : Option Char) (p : List Char),
    hasUC prev pre = false → escOK (lastOr prev pre) = true →
    gpdAux prev (pre ++ ',' :: p) = if p = [] then none else some p := by
  intro pre
  induction pre with
  | nil =>
    intro prev p _ hesc
    show gpdAux prev (',' :: p) = _
    rw [gpdAux, if_pos ⟨rfl, hesc⟩]
  | cons c pre' ih =>
    intro prev p huc hesc
    simp only [hasUC, Bool.or_eq_false_iff, Bool.and_eq_false_iff] at huc
    show gpdAux prev (c :: (pre' ++ ',' :: p)) = _
    rw [gpdAux, if_neg, ih (some c) p huc.2 hesc]
    intro hcontra
    rcases huc.1 with h | h
    · exact absurd (decide_eq_true hcontra.1) (by simpa using h)
    · rw [hcontra.2] at h; simp at h

/-- Soundness half: a successful scan yields a decomposition at an unescaped
comma such that no earlier unescaped comma exists. -/
theorem gpdAux_split : ∀ (dn : List Char) (prev : Option Char) (p : List Char),
    gpdAux prev dn = some p →
    ∃ pre, dn = pre ++ ',' :: p ∧ p ≠ [] ∧ hasUC prev pre = false ∧
      escOK (lastOr prev pre) = true := by
  intro dn
  induction dn with
  | nil => intro prev p h; simp [gpdAux] at h
  | cons c rest ih =>
    intro prev p h
    simp only [gpdAux] at h
    split at h
    · rename_i hcomma
      split at h
      · simp at h
      · rename_i hne
        cases h
        exact ⟨[], by simp [hcomma.1], hne, rfl, hcomma.2⟩
    · rename_i hnot
      obtain ⟨pre, hdn, hp, huc, hesc⟩ := ih (some c) p h
      refine ⟨c :: pre, by simp [hdn], hp, ?_, hesc⟩
      simp only [hasUC, Bool.or_eq_false_iff, Bool.and_eq_false_iff]
      refine ⟨?_, huc⟩
      by_cases hc : c = ','
      · right
        subst hc
        cases hprev : escOK prev
        · simp
        · exact absurd ⟨rfl, hprev⟩ hnot
      · left; simpa using hc

/-- C7 theorem. `get_parent_dn` splits exactly at the first unescaped comma:
`get_parent_dn dn = some p` iff `dn` decomposes as `pre ++ ',' :: p` with
`p` nonempty, no unescaped comma inside `pre`, and the boundary comma itself
unescaped; and on the claim's concrete DN the parent is as required. -/
theorem c7_parent_dn_split :
    (∀ dn p, get_parent_dn dn = some p ↔
      ∃ pre, dn = pre ++ ',' :: p ∧ p ≠ [] ∧ hasUC none pre = false ∧
        escOK (lastOr none pre) = true) ∧
    get_parent_dn ("CN=Smith\\, John,OU=Users,DC=example,DC=com".toList)
      = some ("OU=Users,DC=example,DC=com".toList) := by
  constructor
  · intro dn p
    constructor
    · exact gpdAux_split dn none p
    · rintro ⟨pre, rfl, hp, huc, hesc⟩
      rw [get_parent_dn, gpdAux_of_split pre none p huc hesc, if_neg hp]
  · decide

/-- Witness for C7: the characterization applied at a concrete DN. -/
theorem c7_parent_dn_split_witness :
    get_parent_dn ("A,B".toList) = some ("B".toList) ∧
    (∃ pre, "A,B".toList = pre ++ ',' :: "B".toList ∧ "B".toList ≠ [] ∧
      hasUC none pre = false ∧ escOK (lastOr none pre) = true) :=
  ⟨by decide, (c7_parent_dn_split.1 ("A,B".toList) ("B".toList)).mp (by decide)⟩

/-! ## DN cache construction (adexpsnapshot/__init__.py, preprocess, lines 86-89)

`self.dncache` is a `CaseInsensitiveDict`; insertion stores the value under
the case-folded key, replacing any existing entry for that folded key.  The
loop body is `if distinguishedName: self.dncache[distinguishedName] = idx`
(an empty or absent DN is skipped).  Only the index values are observable
through lookups, so the model keys the association list by the folded key
directly. -/

/-- Python `str.lower` restricted to the snapshot's DN alphabet. -/
def lowerL (l : List Char) : List Char := l.map Char.toLower

/-- `CaseInsensitiveDict.__setitem__`: replace in place or append. -/
def ciInsert (m : List (List Char × Nat)) (k : List Char) (v : Nat) :
    List (List Char × Nat) :=
  match m with
  | [] => [(lowerL k, v)]
  | e :: rest =>
    if e.1 = lowerL k then (e.1, v) :: rest else e :: ciInsert rest k v

/-- `CaseInsensitiveDict.__getitem__` (as an `Option`). -/
def ciLookup (m : List (List Char × Nat)) (k : List Char) : Option Nat :=
  match m with
  | [] => none
  | e :: rest => if e.1 = lowerL k then some e.2 else ciLookup rest k

/-- One iteration of the `preprocess` loop, restricted to the DN-cache
effect: `dn` is the object's `distinguishedName` attribute (or `none`). -/
def preprocessDNStep (m : List (List Char × Nat)) (idx : Nat)
    (dn : Option (List Char)) : List (List Char × Nat) :=
  match dn with
  | none => m
  | some d => if d = [] then m else ciInsert m d idx

/-- The DN cache produced by `preprocess` over the objects in file order
(each object represented by its `distinguishedName` attribute).  The
function is total: the source contains no collision check and raises no
integrity error. -/
def preprocessDNCache (objs : List (Option (List Char))) : List (List Char × Nat) :=
  objs.enum.foldl (fun m p => preprocessDNStep m p.1 p.2) []

/-- Whether the object at position `n` carries a nonempty DN case-folding to
the same string as `k` (and then its index). -/
def dnMatchAt (n : Nat) (k : List Char) : Option (List Char) → Option Nat
  | some d => if d ≠ [] ∧ lowerL d = lowerL k then some n else none
  | none => none

/-- The index of the last object (at or after position `n`) whose
distinguishedName is nonempty and case-folds to the same string as `k`. -/
def lastDNIndexFrom (n : Nat) (k : List Char) :
    List (Option (List Char)) → Option Nat
  | [] => none
  | o :: rest =>
    match lastDNIndexFrom (n + 1) k rest with
    | some i => some i
    | none => dnMatchAt n k o

theorem ciLookup_ciInsert (m : List (List Char × Nat)) (d k : List Char) (v : Nat) :
    ciLookup (ciInsert m d v) k
      = if lowerL d = lowerL k then some v else ciLookup m k := by
  induction m with
  | nil => simp [ciInsert, ciLookup]
  | cons e rest ih =>
    by_cases h0 : e.1 = lowerL d
    · show ciLookup (if e.1 = lowerL d then (e.1, v) :: rest else _) k = _
      rw [if_pos h0]
      show (if e.1 = lowerL k then some v else ciLookup rest k) = _
      by_cases hk : lowerL d = lowerL k
      · rw [if_pos (h0.trans hk), if_pos hk]
      · rw [if_neg (fun hc => hk (h0.symm.trans hc)), if_neg hk]
        show _ = ciLookup (e :: rest) k
        rw [show ciLookup (e :: rest) k
            = if e.1 = lowerL k then some e.2 else ciLookup rest k from rfl,
          if_neg (fun hc => hk ((h0.symm.trans hc)))]
    · show ciLookup (if e.1 = lowerL d then _ else e :: ciInsert rest d v) k = _
      rw [if_neg h0]
      show (if e.1 = lowerL k then some e.2 else ciLookup (ciInsert rest d v) k) = _
      by_cases hk : e.1 = lowerL k
      · have hne : ¬ lowerL d = lowerL k := fun hc => h0 (hk.trans hc.symm)
        rw [if_pos hk, if_neg hne]
        rw [show ciLookup (e :: rest) k
            = if e.1 = lowerL k then some e.2 else ciLookup rest k from rfl,
          if_pos hk]
      · rw [if_neg hk, ih]
        by_cases hdk : lowerL d = lowerL k
        · rw [if_pos hdk, if_pos hdk]
        · rw [if_neg hdk, if_neg hdk]
          rw [show ciLookup (e :: rest) k
              = if e.1 = lowerL k then some e.2 else ciLookup rest k from rfl,
            if_neg hk]

theorem preprocessDNCache_foldl (objs : List (Option (List Char))) :
    ∀ (n : Nat) (m : List (List Char × Nat)) (k : List Char),
    ciLookup ((objs.enumFrom n).foldl (fun m p => preprocessDNStep m p.1 p.2) m) k
      = match lastDNIndexFrom n k objs with
        | some i => some i
        | none => ciLookup m k := by
  induction objs with
  | nil => intro n m k; simp [lastDNIndexFrom, List.enumFrom]
  | cons o rest ih =>
    intro n m k
    show ciLookup ((rest.enumFrom (n + 1)).foldl _ (preprocessDNStep m n o)) k = _
    rw [ih (n + 1) (preprocessDNStep m n o) k]
    rw [show lastDNIndexFrom n k (o :: rest)
        = (match lastDNIndexFrom (n + 1) k rest with
           | some i => some i
           | none => dnMatchAt n k o) from rfl]
    cases htail : lastDNIndexFrom (n + 1) k rest with
    | some i => rfl
    | none =>
      show ciLookup (preprocessDNStep m n o) k
          = (match dnMatchAt n k o with | some i => some i | none => ciLookup m k)
      cases o with
      | none => rfl
      | some d =>
        show ciLookup (if d = [] then m else ciInsert m d n) k
            = (match (if d ≠ [] ∧ lowerL d = lowerL k then some n else none) with
               | some i => some i
               | none => ciLookup m k)
        by_cases hd : d = []
        · rw [if_pos hd, if_neg (fun hc : d ≠ [] ∧ _ => hc.1 hd)]
        · rw [if_neg hd, ciLookup_ciInsert]
          by_cases hk : lowerL d = lowerL k
          · rw [if_pos hk, if_pos ⟨hd, hk⟩]
          · rw [if_neg hk, if_neg (fun hc : d ≠ [] ∧ _ => hk hc.2)]

/-- C4 amended theorem.  The DN-index pass signals no integrity error on a
case-folded DN collision: `preprocessDNCache` is a total function, and the
cache resolves every (case-insensitive) DN lookup to the index of the *last*
object carrying a matching nonempty distinguishedName — a later object
silently overwrites an earlier one with a case-fold-equal DN. -/
theorem c4_amended (objs : List (Option (List Char))) (k : List Char) :
    ciLookup (preprocessDNCache objs) k = lastDNIndexFrom 0 k objs := by
  have he : preprocessDNCache objs
      = (objs.enumFrom 0).foldl (fun m p => preprocessDNStep m p.1 p.2) [] := rfl
  rw [he, preprocessDNCache_foldl objs 0 [] k]
  cases lastDNIndexFrom 0 k objs <;> rfl

/-- C4 counterexample.  Two distinct objects (indices 0 and 1) whose DNs
differ only by case: the claimed fatal integrity error is not signalled;
instead index 1 silently overwrites index 0 in the cache, so the final cache
holds a single entry with value 1. -/
theorem c4_counterexample :
    ("CN=A,DC=X".toList ≠ "cn=a,dc=x".toList) ∧
    lowerL ("CN=A,DC=X".toList) = lowerL ("cn=a,dc=x".toList) ∧
    preprocessDNCache [some ("CN=A,DC=X".toList), some ("cn=a,dc=x".toList)]
      = [(lowerL ("CN=A,DC=X".toList), 1)] ∧
    ciLookup (preprocessDNCache [some ("CN=A,DC=X".toList),
      some ("cn=a,dc=x".toList)]) ("CN=A,DC=X".toList) = some 1 := by
  refine ⟨by decide, by decide, by decide, by decide⟩

/-! ## Synthetic objects (adexpsnapshot/treeview/synthetic.py)

`create_synthetic_object` emits one minimal object record; the record layout
is `[uint32 objSize][uint32 tableSize = 1][uint32 propIdx][int32 16]`
followed by the attribute area `[uint32 1][uint32 8][UTF-16LE DN][00 00]`.
`snap.propertyDict` (built by the snapshot parser) maps property names to
indices; it is passed in as an exact-match association list. -/

/-- Exact-match association lookup (a plain Python `dict.get`). -/
def alookupN (m : List (List Char × Nat)) (k : List Char) : Option Nat :=
  match m with
  | [] => none
  | e :: rest => if e.1 = k then some e.2 else alookupN rest k

/-- UTF-16LE encoding of one character (`str.encode("utf-16le")`), with
surrogate pairs for characters beyond the basic plane. -/
def utf16leChar (c : Char) : List Nat :=
  let n := c.toNat
  if n < 0x10000 then [n % 256, n / 256]
  else
    let m := n - 0x10000
    let hi := 0xD800 + m / 0x400
    let lo := 0xDC00 + m % 0x400
    [hi % 256, hi / 256, lo % 256, lo / 256]

/-- UTF-16LE encoding of a string. -/
def utf16le (s : List Char) : List Nat := (s.map utf16leChar).flatten

/-- `create_synthetic_object` from treeview/synthetic.py.  The `int32`
mapping-table offset is the constant 16 (= `attr_data_start`), so its signed
packing coincides with `le32`. -/
def create_synthetic_object (dn : List Char) (pd : List (List Char × Nat)) :
    Except String (List Nat) :=
  match alookupN pd ("distinguishedName".toList) with
  | none => .error "Cannot create synthetic object: missing distinguishedName property"
  | some pidx =>
    let dn_encoded := utf16le dn ++ [0, 0]
    let attr_data := le32 1 ++ le32 8 ++ dn_encoded
    let obj_size := 8 + 8 + attr_data.length
    .ok (le32 obj_size ++ le32 1 ++ le32 pidx ++ le32 16 ++ attr_data)

/-- C5 theorem.  For every DN, `create_synthetic_object` yields a record
whose mapping table has exactly one entry — `(distinguishedName property
index, offset 16)` — whose attribute value is the DN as a null-terminated
UTF-16LE string, and whose leading `uint32` equals the total byte length
(8-byte header + 8-byte mapping table + attribute payload); it fails when
the schema lacks a distinguishedName property. -/
theorem c5_synthetic_object_record (dn : List Char) (pd : List (List Char × Nat)) :
    (alookupN pd ("distinguishedName".toList) = none →
      create_synthetic_object dn pd
        = .error "Cannot create synthetic object: missing distinguishedName property") ∧
    (∀ pidx, alookupN pd ("distinguishedName".toList) = some pidx →
      ∃ bs, create_synthetic_object dn pd = .ok bs ∧
        bs.length = 8 + 8 + (8 + (utf16le dn).length + 2) ∧
        (bs.length < 2 ^ 32 → readLE32 bs 0 = bs.length) ∧
        readLE32 bs 4 = 1 ∧
        (pidx < 2 ^ 32 → readLE32 bs 8 = pidx) ∧
        readLE32 bs 12 = 16 ∧
        bs.drop 16 = le32 1 ++ le32 8 ++ (utf16le dn ++ [0, 0]) ∧
        bs.drop 24 = utf16le dn ++ [0, 0]) := by
  constructor
  · intro h
    rw [create_synthetic_object, h]
  · intro pidx h
    refine ⟨_, by rw [create_synthetic_object, h], ?_, ?_, ?_, ?_, ?_, ?_, ?_⟩
    · simp [le32]
      omega
    · intro hsmall
      simp only [le32, List.length_append, List.length_cons, List.length_nil] at hsmall ⊢
      simp [readLE32, leToNat, le32]
      omega
    · simp [readLE32, leToNat, le32]
    · intro hp
      simp [readLE32, leToNat, le32]
      omega
    · simp [readLE32, leToNat, le32]
    · simp [le32]
    · simp [le32]

/-- Witness for C5: both branches exercised at concrete inputs. -/
theorem c5_synthetic_object_record_witness :
    (create_synthetic_object ("DC=x".toList) []
      = .error "Cannot create synthetic object: missing distinguishedName property") ∧
    (∃ bs, create_synthetic_object ("DC=x".toList)
        [("distinguishedName".toList, 5)] = .ok bs ∧
      bs.length = 8 + 8 + (8 + (utf16le ("DC=x".toList)).length + 2) ∧
      (bs.length < 2 ^ 32 → readLE32 bs 0 = bs.length) ∧
      readLE32 bs 4 = 1 ∧
      (5 < 2 ^ 32 → readLE32 bs 8 = 5) ∧
      readLE32 bs 12 = 16 ∧
      bs.drop 16 = le32 1 ++ le32 8 ++ (utf16le ("DC=x".toList) ++ [0, 0]) ∧
      bs.drop 24 = utf16le ("DC=x".toList) ++ [0, 0]) :=
  ⟨(c5_synthetic_object_record ("DC=x".toList) []).1 (by decide),
   (c5_synthetic_object_record ("DC=x".toList)
     [("distinguishedName".toList, 5)]).2 5 (by decide)⟩

/-! ## create_synthetic_objects_data (treeview/synthetic.py, lines 72-109)

The Python loop is `for dn in sorted(missing_dns, key=len)`, assigning
`current_idx` starting at `len(snap.objectOffsets)` and `current_offset`
starting at `start_offset`, both advanced per emitted record.  `sorted` with
`key=len` is any length-stable sort; iteration order of the input `set` is
unspecified in Python, so ties between equal-length DNs carry no meaning.
The model sorts the given list by length with an insertion sort. -/

/-- Length comparison on DN strings. -/
def lenLE (a b : List Char) : Prop := a.length ≤ b.length

instance : DecidableRel lenLE := fun a b => Nat.decLe a.length b.length

instance : IsTotal (List Char) lenLE := ⟨fun a b => Nat.le_total a.length b.length⟩

instance : IsTrans (List Char) lenLE := ⟨fun _ _ _ => Nat.le_trans⟩

/-- `sorted(·, key=len)`. -/
def sortByLen (l : List (List Char)) : List (List Char) := l.insertionSort lenLE

/-- Index/offset record for one synthetic object (`{'obj_idx', 'obj_offset'}`). -/
structure SynInfo where
  obj_idx : Nat
  obj_offset : Nat
deriving DecidableEq

/-- The loop body of `create_synthetic_objects_data`: walk the sorted DNs,
emitting each record and advancing the index and the running byte offset. -/
def synLoop (pd : List (List Char × Nat)) :
    List (List Char) → Nat → Nat → Except String (List (List Char × SynInfo) × List Nat)
  | [], _, _ => .ok ([], [])
  | dn :: rest, idx, off =>
    match create_synthetic_object dn pd with
    | .error e => .error e
    | .ok obj =>
      match synLoop pd rest (idx + 1) (off + obj.length) with
      | .error e => .error e
      | .ok (syn, data) => .ok ((dn, ⟨idx, off⟩) :: syn, obj ++ data)

/-- `create_synthetic_objects_data` from treeview/synthetic.py. -/
def create_synthetic_objects_data (missing : List (List Char))
    (pd : List (List Char × Nat)) (numReal start : Nat) :
    Except String (List (List Char × SynInfo) × List Nat) :=
  if missing = [] then .ok ([], [])
  else synLoop pd (sortByLen missing) numReal start

theorem synLoop_spec (pd : List (List Char × Nat)) :
    ∀ (l : List (List Char)) (idx off : Nat) (syn : List (List Char × SynInfo))
      (data : List Nat), synLoop pd l idx off = .ok (syn, data) →
    syn.map Prod.fst = l ∧
    ∃ recs : List (List Nat), data = recs.flatten ∧ recs.length = syn.length ∧
      ∀ i (hi : i < syn.length) (hr : i < recs.length),
        create_synthetic_object ((syn.get ⟨i, hi⟩).1) pd = .ok (recs.get ⟨i, hr⟩) ∧
        (syn.get ⟨i, hi⟩).2.obj_idx = idx + i ∧
        (syn.get ⟨i, hi⟩).2.obj_offset
          = off + ((recs.take i).map List.length).sum := by
  intro l
  induction l with
  | nil =>
    intro idx off syn data h
    rw [synLoop] at h
    cases h
    exact ⟨rfl, [], rfl, rfl, fun i hi => absurd hi (by simp)⟩
  | cons dn rest ih =>
    intro idx off syn data h
    cases hc : create_synthetic_object dn pd with
    | error e => simp [synLoop, hc] at h
    | ok obj =>
      cases hr : synLoop pd rest (idx + 1) (off + obj.length) with
      | error e => simp [synLoop, hc, hr] at h
      | ok pr =>
        obtain ⟨syn', data'⟩ := pr
        simp only [synLoop, hc, hr, Except.ok.injEq, Prod.mk.injEq] at h
        obtain ⟨hsyn, hdata⟩ := h
        subst hsyn
        subst hdata
        obtain ⟨hmap, recs', hdata', hlen', hfact⟩
          := ih (idx + 1) (off + obj.length) syn' data' hr
        refine ⟨by simp [hmap], obj :: recs', by simp [hdata'], by simp [hlen'], ?_⟩
        intro i hi hrr
        cases i with
        | zero =>
          exact ⟨hc, by simp, by simp⟩
        | succ j =>
          have hj : j < syn'.length := by simpa using hi
          have hjr : j < recs'.length := by simpa using hrr
          obtain ⟨h1, h2, h3⟩ := hfact j hj hjr
          refine ⟨h1, ?_, ?_⟩
          · rw [show (((dn, ({ obj_idx := idx, obj_offset := off } : SynInfo))
              :: syn').get ⟨j + 1, hi⟩) = syn'.get ⟨j, hj⟩ from rfl, h2]
            omega
          · rw [show (((dn, ({ obj_idx := idx, obj_offset := off } : SynInfo))
              :: syn').get ⟨j + 1, hi⟩) = syn'.get ⟨j, hj⟩ from rfl, h3]
            simp
            omega

/-- C6 theorem.  A successful `create_synthetic_objects_data` run processes
the missing DNs in non-decreasing length order; the `i`-th processed DN gets
object index `numReal + i` (where `numReal = len(snap.objectOffsets)` and
real objects occupy indices `0 .. numReal - 1`) and byte offset `start` plus
the summed byte sizes of the previously emitted records; every synthetic
index is `≥ numReal`, hence distinct from every real index. -/
theorem c6_synthetic_assignment (missing : List (List Char))
    (pd : List (List Char × Nat)) (numReal start : Nat)
    (syn : List (List Char × SynInfo)) (data : List Nat)
    (hne : missing ≠ [])
    (hok : create_synthetic_objects_data missing pd numReal start = .ok (syn, data)) :
    syn.map Prod.fst = sortByLen missing ∧
    List.Sorted lenLE (syn.map Prod.fst) ∧
    (∃ recs : List (List Nat), data = recs.flatten ∧ recs.length = syn.length ∧
      ∀ i (hi : i < syn.length) (hr : i < recs.length),
        create_synthetic_object ((syn.get ⟨i, hi⟩).1) pd = .ok (recs.get ⟨i, hr⟩) ∧
        (syn.get ⟨i, hi⟩).2.obj_idx = numReal + i ∧
        (syn.get ⟨i, hi⟩).2.obj_offset
          = start + ((recs.take i).map List.length).sum) ∧
    (∀ e ∈ syn, numReal ≤ e.2.obj_idx) := by
  rw [create_synthetic_objects_data, if_neg hne] at hok
  obtain ⟨hmap, recs, hdata, hlen, hfact⟩ := synLoop_spec pd _ _ _ _ _ hok
  refine ⟨hmap, by rw [hmap]; exact List.sorted_insertionSort lenLE missing,
    ⟨recs, hdata, hlen, hfact⟩, ?_⟩
  intro e he
  obtain ⟨⟨i, hi⟩, hg⟩ := List.mem_iff_get.mp he
  have := (hfact i hi (hlen ▸ hi)).2.1
  rw [hg] at this
  omega

/-- Witness for C6 at a concrete two-element missing set. -/
theorem c6_synthetic_assignment_witness :
    ∃ syn data,
      create_synthetic_objects_data ["OU=b,DC=a".toList, "DC=a".toList]
        [("distinguishedName".toList, 3)] 7 100 = .ok (syn, data) ∧
      (syn.map Prod.fst = sortByLen ["OU=b,DC=a".toList, "DC=a".toList] ∧
       List.Sorted lenLE (syn.map Prod.fst) ∧
       (∃ recs : List (List Nat), data = recs.flatten ∧ recs.length = syn.length ∧
         ∀ i (hi : i < syn.length) (hr : i < recs.length),
           create_synthetic_object ((syn.get ⟨i, hi⟩).1)
             [("distinguishedName".toList, 3)] = .ok (recs.get ⟨i, hr⟩) ∧
           (syn.get ⟨i, hi⟩).2.obj_idx = 7 + i ∧
           (syn.get ⟨i, hi⟩).2.obj_offset
             = 100 + ((recs.take i).map List.length).sum) ∧
       (∀ e ∈ syn, 7 ≤ e.2.obj_idx)) := by
  match hok : create_synthetic_objects_data ["OU=b,DC=a".toList, "DC=a".toList]
      [("distinguishedName".toList, 3)] 7 100 with
  | .ok (syn, data) =>
    exact ⟨syn, data, rfl, c6_synthetic_assignment _ _ _ _ _ _ (by decide) hok⟩
  | .error e =>
    have hko : (create_synthetic_objects_data ["OU=b,DC=a".toList, "DC=a".toList]
        [("distinguishedName".toList, 3)] 7 100).isOk = true := by decide
    rw [hok] at hko
    exact Bool.noConfusion hko

/-! ## Tree nodes (build_nc_tree's node dicts)

A tree node is the dict `{'dn', 'obj_idx', 'obj_offset', 'children'}`.  A
mutual inductive avoids nested-inductive recursion so that all consumers are
plain structural recursions. -/

mutual
inductive TNode : Type where
  | mk : (dn : List Char) → (objIdx : Int) → (objOffset : Nat) →
      (children : TNodes) → TNode
inductive TNodes : Type where
  | nil : TNodes
  | cons : TNode → TNodes → TNodes
end

def TNode.dn : TNode → List Char
  | .mk d _ _ _ => d

def TNode.objIdx : TNode → Int
  | .mk _ i _ _ => i

def TNode.objOffset : TNode → Nat
  | .mk _ _ o _ => o

def TNode.children : TNode → TNodes
  | .mk _ _ _ cs => cs

def TNodes.toList : TNodes → List TNode
  | .nil => []
  | .cons t ts => t :: ts.toList

def toTNodes : List TNode → TNodes
  | [] => .nil
  | t :: ts => .cons t (toTNodes ts)

/-- `not node.get('children')` — the node dict's children list is empty. -/
def TNode.isLeaf (t : TNode) : Bool :=
  match t.children with
  | .nil => true
  | .cons _ _ => false

mutual
def flattenT : TNode → List TNode
  | .mk d i o cs => .mk d i o cs :: flattenL cs
def flattenL : TNodes → List TNode
  | .nil => []
  | .cons t ts => flattenT t ++ flattenL ts
end

mutual
def markInlineT : TNode → List Int
  | .mk _ _ _ cs => markInlineL cs
def markInlineL : TNodes → List Int
  | .nil => []
  | .cons c rest =>
    (if c.isLeaf then [c.objIdx] else markInlineT c) ++ markInlineL rest
end

mutual
def treeDNs : TNode → List (List Char)
  | .mk d _ _ cs => d :: treeDNsL cs
def treeDNsL : TNodes → List (List Char)
  | .nil => []
  | .cons t ts => treeDNs t ++ treeDNsL ts
end

/-- The `(parent DN, child DN)` pairs directly below one node. -/
def treeEdgeList (d : List Char) : TNodes → List (List Char × List Char)
  | .nil => []
  | .cons c rest => (d, c.dn) :: treeEdgeList d rest

mutual
def treeParentEdges : TNode → List (List Char × List Char)
  | .mk d _ _ cs => treeEdgeList d cs ++ treeParentEdgesL cs
def treeParentEdgesL : TNodes → List (List Char × List Char)
  | .nil => []
  | .cons t ts => treeParentEdges t ++ treeParentEdgesL ts
end


/-! ## encode_section (section_encoder_clean.py, lines 110-229)

PASS 1 marks leaf children inline-only; PASS 2 assigns 4-byte-word positions
to the remaining nodes in pre-order and caches the children classification;
PASS 3 writes each `ParentNode` structure into a pre-allocated zero buffer at
byte `4 * word_pos`.  `node_word_positions` and `node_metadata` are Python
dicts keyed by `obj_idx`. -/

/-- Python dict assignment `m[k] = v` on an association list (replace in
place, else append). -/
def aInsert {β : Type} (m : List (Int × β)) (k : Int) (v : β) : List (Int × β) :=
  match m with
  | [] => [(k, v)]
  | e :: rest => if e.1 = k then (e.1, v) :: rest else e :: aInsert rest k v

/-- Python dict lookup on an association list. -/
def aLookup {β : Type} (m : List (Int × β)) (k : Int) : Option β :=
  match m with
  | [] => none
  | e :: rest => if e.1 = k then some e.2 else aLookup rest k

/-- `entries_with_children` of a node (children that have children). -/
def nodeEwc (n : TNode) : List TNode :=
  n.children.toList.filter (fun c => !c.isLeaf)

/-- `entries_without_children` of a node (leaf children, stored inline). -/
def nodeEwoc (n : TNode) : List TNode :=
  n.children.toList.filter (fun c => c.isLeaf)

/-- ParentNode size in 4-byte words:
`4 + len(entries_with_children) + len(entries_without_children) * 2`. -/
def sizeW (n : TNode) : Nat := 4 + (nodeEwc n).length + 2 * (nodeEwoc n).length

/-- PASS 2 state: `node_word_positions`, `node_metadata`, `current_word_pos`. -/
structure P2State where
  positions : List (Int × Nat)
  meta : List (Int × (List TNode × List TNode))
  cur : Nat

/-- PASS 2 of `encode_section`. -/
def pass2 (inl : List Int) : List TNode → P2State → Except String P2State
  | [], st => .ok st
  | n :: rest, st =>
    if inl.contains n.objIdx then pass2 inl rest st
    else if n.children.toList.isEmpty then
      .error ("Unsupported edge case: root node " ++ toString n.objIdx
        ++ " has no children")
    else
      pass2 inl rest
        { positions := aInsert st.positions n.objIdx st.cur,
          meta := aInsert st.meta n.objIdx (nodeEwc n, nodeEwoc n),
          cur := st.cur + sizeW n }

/-- One serialized `ParentNode` entry (plus the bookkeeping used to place
it: its node's `obj_idx` and assigned word position). -/
structure PEntry where
  objectOffset : Nat
  nodeIdx : Int
  nodeWordPos : Nat
  childOffsets : List Int
  inlineChildOffsets : List Nat
deriving DecidableEq

/-- The relative child-offset computation of PASS 3:
`(child_word_pos - word_pos) * 4` for each child-with-children. -/
def mkChildOffsets (positions : List (Int × Nat)) (wordPos : Nat) :
    List TNode → Except String (List Int)
  | [] => .ok []
  | c :: rest =>
    match aLookup positions c.objIdx with
    | none => .error "KeyError: node_word_positions"
    | some cp =>
      match mkChildOffsets positions wordPos rest with
      | .error e => .error e
      | .ok os => .ok ((((cp : Int) - (wordPos : Int)) * 4) :: os)

/-- PASS 3 of `encode_section`, producing the entries in emission order. -/
def pass3 (inl : List Int) (positions : List (Int × Nat))
    (meta : List (Int × (List TNode × List TNode))) :
    List TNode → Except String (List PEntry)
  | [] => .ok []
  | n :: rest =>
    if inl.contains n.objIdx then pass3 inl positions meta rest
    else
      match aLookup positions n.objIdx, aLookup meta n.objIdx with
      | some wp, some m =>
        match mkChildOffsets positions wp m.1 with
        | .error e => .error e
        | .ok cos =>
          match pass3 inl positions meta rest with
          | .error e => .error e
          | .ok es =>
            .ok (⟨n.objOffset, n.objIdx, wp, cos, m.2.map TNode.objOffset⟩ :: es)
      | _, _ => .error "KeyError: node positions or metadata"

/-- The result of the two bookkeeping passes of `encode_section`. -/
structure EncResult where
  entries : List PEntry
  positions : List (Int × Nat)
  meta : List (Int × (List TNode × List TNode))
  totalWords : Nat

/-- The bookkeeping core of `encode_section`. -/
def encodeCore (t : TNode) : Except String EncResult :=
  let all := flattenT t
  let inl := markInlineT t
  match pass2 inl all ⟨[], [], 0⟩ with
  | .error e => .error e
  | .ok st =>
    match pass3 inl st.positions st.meta all with
    | .error e => .error e
    | .ok es => .ok ⟨es, st.positions, st.meta, st.cur⟩

/-- `struct` packing of a (possibly negative) `int` into a `uint32` slot. -/
def le32i (v : Int) : List Nat := le32 ((v % (2 ^ 32 : Int)).toNat)

/-- `ParentNode.dumps()` of dissect.cstruct (treeview/structure.py):
`uint64 objectOffset`, `uint32 num_children_with_children`,
`uint32 num_children_without_children`, the `uint32 child_offsets` array and
the `uint64 inline_child_offsets` array, all little endian. -/
def dumpEntry (e : PEntry) : List Nat :=
  le64 e.objectOffset ++ le32 e.childOffsets.length
    ++ le32 e.inlineChildOffsets.length
    ++ (e.childOffsets.map le32i).flatten
    ++ (e.inlineChildOffsets.map le64).flatten

/-- `BytesIO` seek-and-write into a buffer (extending at the end). -/
def writeBytesAt (buf : List Nat) (pos : Nat) (bytes : List Nat) : List Nat :=
  buf.take pos ++ bytes ++ buf.drop (pos + bytes.length)

/-- `encode_section`: pre-allocate `current_word_pos * 4` zero bytes, then
write every entry at byte `4 * word_pos`. -/
def encode_section (t : TNode) : Except String (List Nat) :=
  match encodeCore t with
  | .error e => .error e
  | .ok r => .ok (r.entries.foldl
      (fun buf e => writeBytesAt buf (4 * e.nodeWordPos) (dumpEntry e))
      (List.replicate (r.totalWords * 4) 0))

/-- C8 theorem.  A tree whose root has no children cannot be encoded:
`encode_section` fails with the source's "unsupported edge case" error for
every such tree (and consequently emits no entry at all). -/
theorem c8_childless_root_fails (d : List Char) (i : Int) (off : Nat) :
    encode_section (.mk d i off .nil)
      = .error ("Unsupported edge case: root node " ++ toString i
          ++ " has no children") := rfl

/-! ## C2: the child-offsets array -/

/-- The claim's reading of the child-offsets array: each element equals the
child's assigned position minus the node's position *in words*. -/
def c2WordOffsetClaim (r : EncResult) : Bool :=
  r.entries.all fun e =>
    match aLookup r.meta e.nodeIdx with
    | none => false
    | some m =>
      (e.childOffsets.zip m.1).all fun pr =>
        match aLookup r.positions pr.2.objIdx with
        | some cp => pr.1 == (cp : Int) - (e.nodeWordPos : Int)
        | none => false

/-- A three-level chain: root (offset 100) → one child-with-children
(offset 200) → one leaf (offset 300). -/
def c2ClaimTree : TNode :=
  .mk ("DC=a".toList) 0 100
    (.cons (.mk ("OU=b,DC=a".toList) 1 200
      (.cons (.mk ("CN=c,OU=b,DC=a".toList) 2 300 .nil) .nil)) .nil)

/-- The bookkeeping result, with a vacuous default for the error case. -/
def encResD (t : TNode) : EncResult :=
  match encodeCore t with
  | .ok r => r
  | .error _ => ⟨[], [], [], 0⟩

/-- C2 counterexample.  On `c2ClaimTree` the root entry's child-offsets
array is `[20]`, while the child's assigned position (5 words) minus the
root's position (0 words) is 5 — the stored element is the *byte* offset
`5 * 4 = 20`, not the word offset claimed. -/
theorem c2_counterexample :
    (encodeCore c2ClaimTree).isOk = true ∧
    c2WordOffsetClaim (encResD c2ClaimTree) = false ∧
    (encResD c2ClaimTree).entries.map PEntry.childOffsets = [[20], []] ∧
    aLookup (encResD c2ClaimTree).positions 0 = some 0 ∧
    aLookup (encResD c2ClaimTree).positions 1 = some 5 := by
  exact ⟨by decide, by decide, by decide, by decide, by decide⟩

/-! Characterization of the two passes, used for the amended C2 theorem. -/

theorem aLookup_aInsert_fresh {β : Type} (m : List (Int × β)) (k : Int) (v : β)
    (h : aLookup m k = none) : aInsert m k v = m ++ [(k, v)] := by
  induction m with
  | nil => rfl
  | cons e rest ih =>
    rw [aLookup] at h
    by_cases he : e.1 = k
    · rw [if_pos he] at h; cases h
    · rw [if_neg he] at h
      rw [aInsert, if_neg he, ih h]
      rfl

theorem aLookup_append_left {β : Type} (m₁ m₂ : List (Int × β)) (k : Int)
    (h : aLookup m₁ k = none) : aLookup (m₁ ++ m₂) k = aLookup m₂ k := by
  induction m₁ with
  | nil => rfl
  | cons e rest ih =>
    rw [aLookup] at h
    by_cases he : e.1 = k
    · rw [if_pos he] at h; cases h
    · rw [if_neg he] at h
      show aLookup (e :: (rest ++ m₂)) k = _
      rw [aLookup, if_neg he, ih h]

/-- The word positions PASS 2 assigns, starting at `c`: consume the node
list in order, skipping inline-only nodes. -/
def specPos (inl : List Int) : List TNode → Nat → List (Int × Nat)
  | [], _ => []
  | n :: rest, c =>
    if inl.contains n.objIdx then specPos inl rest c
    else (n.objIdx, c) :: specPos inl rest (c + sizeW n)

/-- The metadata PASS 2 caches. -/
def specMeta (inl : List Int) : List TNode → List (Int × (List TNode × List TNode))
  | [] => []
  | n :: rest =>
    if inl.contains n.objIdx then specMeta inl rest
    else (n.objIdx, (nodeEwc n, nodeEwoc n)) :: specMeta inl rest

/-- Total word count PASS 2 accumulates. -/
def totalW (inl : List Int) : List TNode → Nat
  | [] => 0
  | n :: rest => (if inl.contains n.objIdx then 0 else sizeW n) + totalW inl rest

/-- The nodes that receive standalone entries, in emission order. -/
def filteredNodes (inl : List Int) (l : List TNode) : List TNode :=
  l.filter (fun n => !inl.contains n.objIdx)

theorem filteredNodes_cons_inl {inl : List Int} {n : TNode} (rest : List TNode)
    (h : inl.contains n.objIdx = true) :
    filteredNodes inl (n :: rest) = filteredNodes inl rest := by
  have hm : n.objIdx ∈ inl := by simpa using h
  simp [filteredNodes, hm]

theorem filteredNodes_cons_keep {inl : List Int} {n : TNode} (rest : List TNode)
    (h : inl.contains n.objIdx = false) :
    filteredNodes inl (n :: rest) = n :: filteredNodes inl rest := by
  have hm : n.objIdx ∉ inl := by simpa using h
  simp [filteredNodes, hm]

theorem pass2_shape (inl : List Int) :
    ∀ (l : List TNode) (st st' : P2State),
    ((filteredNodes inl l).map TNode.objIdx).Nodup →
    (∀ n ∈ filteredNodes inl l, aLookup st.positions n.objIdx = none) →
    (∀ n ∈ filteredNodes inl l, aLookup st.meta n.objIdx = none) →
    pass2 inl l st = .ok st' →
    st'.positions = st.positions ++ specPos inl l st.cur ∧
    st'.meta = st.meta ++ specMeta inl l ∧
    st'.cur = st.cur + totalW inl l := by
  intro l
  induction l with
  | nil =>
    intro st st' _ _ _ h
    rw [pass2] at h
    cases h
    exact ⟨by simp [specPos], by simp [specMeta], by simp [totalW]⟩
  | cons n rest ih =>
    intro st st' hnd hfp hfm h
    rw [pass2] at h
    cases hinl : inl.contains n.objIdx with
    | true =>
      rw [if_pos hinl] at h
      have heq := filteredNodes_cons_inl rest hinl
      rw [heq] at hnd hfp hfm
      have := ih st st' hnd hfp hfm h
      rw [specPos, specMeta, totalW, if_pos hinl, if_pos hinl, if_pos hinl]
      simpa using this
    | false =>
      have hcond : ¬ (inl.contains n.objIdx = true) := by
        rw [hinl]; exact Bool.false_ne_true
      rw [if_neg hcond] at h
      have heq := filteredNodes_cons_keep rest hinl
      rw [heq] at hnd hfp hfm
      have hmem : n ∈ n :: filteredNodes inl rest := List.mem_cons_self n _
      cases hch : n.children.toList.isEmpty with
      | true => rw [if_pos (by simp [hch])] at h; cases h
      | false =>
        rw [if_neg (by simp [hch])] at h
        have hndt : ((filteredNodes inl rest).map TNode.objIdx).Nodup := by
          have := hnd
          simp only [List.map_cons, List.nodup_cons] at this
          exact this.2
        have hfresh : n.objIdx ∉ (filteredNodes inl rest).map TNode.objIdx := by
          have := hnd
          simp only [List.map_cons, List.nodup_cons] at this
          exact this.1
        have hfp' : ∀ m ∈ filteredNodes inl rest,
            aLookup (aInsert st.positions n.objIdx st.cur) m.objIdx = none := by
          intro m hm
          rw [aLookup_aInsert_fresh _ _ _ (hfp n hmem),
            aLookup_append_left _ _ _ (hfp m (List.mem_cons_of_mem _ hm))]
          have hne : n.objIdx ≠ m.objIdx := by
            intro hcontra
            exact hfresh (hcontra ▸ List.mem_map_of_mem TNode.objIdx hm)
          rw [aLookup, if_neg hne, aLookup]
        have hfm' : ∀ m ∈ filteredNodes inl rest,
            aLookup (aInsert st.meta n.objIdx (nodeEwc n, nodeEwoc n)) m.objIdx
              = none := by
          intro m hm
          rw [aLookup_aInsert_fresh _ _ _ (hfm n hmem),
            aLookup_append_left _ _ _ (hfm m (List.mem_cons_of_mem _ hm))]
          have hne : n.objIdx ≠ m.objIdx := by
            intro hcontra
            exact hfresh (hcontra ▸ List.mem_map_of_mem TNode.objIdx hm)
          rw [aLookup, if_neg hne, aLookup]
        obtain ⟨hp, hm, hc⟩ := ih _ st' hndt hfp' hfm' h
        refine ⟨?_, ?_, ?_⟩
        · rw [hp]
          show _ = st.positions ++ specPos inl (n :: rest) st.cur
          rw [specPos, if_neg hcond,
            aLookup_aInsert_fresh _ _ _ (hfp n hmem), List.append_assoc,
            List.singleton_append]
        · rw [hm]
          show _ = st.meta ++ specMeta inl (n :: rest)
          rw [specMeta, if_neg hcond,
            aLookup_aInsert_fresh _ _ _ (hfm n hmem), List.append_assoc,
            List.singleton_append]
        · rw [hc]
          show st.cur + sizeW n + totalW inl rest = st.cur + totalW inl (n :: rest)
          rw [totalW, if_neg hcond]
          omega

theorem specPos_lookup (inl : List Int) :
    ∀ (l : List TNode) (c k : Nat) (nk : TNode),
    (filteredNodes inl l)[k]? = some nk →
    ((filteredNodes inl l).map TNode.objIdx).Nodup →
    aLookup (specPos inl l c) nk.objIdx
      = some (c + (((filteredNodes inl l).take k).map sizeW).sum) := by
  intro l
  induction l with
  | nil => intro c k nk hk; simp [filteredNodes] at hk
  | cons n rest ih =>
    intro c k nk hk hnd
    cases hinl : inl.contains n.objIdx with
    | true =>
      have heq := filteredNodes_cons_inl rest hinl
      rw [specPos, if_pos hinl]
      rw [heq] at hk hnd ⊢
      exact ih c k nk hk hnd
    | false =>
      have hcond : ¬ (inl.contains n.objIdx = true) := by
        rw [hinl]; exact Bool.false_ne_true
      have heq := filteredNodes_cons_keep rest hinl
      rw [specPos, if_neg hcond]
      rw [heq] at hk hnd ⊢
      simp only [List.map_cons, List.nodup_cons] at hnd
      cases k with
      | zero =>
        have hnk : n = nk := by simpa using hk
        subst hnk
        show aLookup ((n.objIdx, c) :: _) n.objIdx = _
        rw [aLookup, if_pos rfl]
        simp
      | succ j =>
        have hj : (filteredNodes inl rest)[j]? = some nk := by simpa using hk
        have hmem : nk ∈ filteredNodes inl rest := List.getElem?_mem hj
        have hne : n.objIdx ≠ nk.objIdx := by
          intro hcontra
          exact hnd.1 (hcontra ▸ List.mem_map_of_mem TNode.objIdx hmem)
        show aLookup ((n.objIdx, c) :: specPos inl rest (c + sizeW n)) _ = _
        rw [aLookup, if_neg hne, ih (c + sizeW n) j nk hj hnd.2]
        congr 1
        rw [show ((n :: filteredNodes inl rest).take (j + 1))
            = n :: (filteredNodes inl rest).take j from rfl]
        simp
        omega

theorem specMeta_lookup (inl : List Int) :
    ∀ (l : List TNode) (n : TNode), n ∈ filteredNodes inl l →
    ((filteredNodes inl l).map TNode.objIdx).Nodup →
    aLookup (specMeta inl l) n.objIdx = some (nodeEwc n, nodeEwoc n) := by
  intro l
  induction l with
  | nil => intro n hn; simp [filteredNodes] at hn
  | cons m rest ih =>
    intro n hn hnd
    cases hinl : inl.contains m.objIdx with
    | true =>
      have heq := filteredNodes_cons_inl rest hinl
      rw [specMeta, if_pos hinl]
      rw [heq] at hn hnd
      exact ih n hn hnd
    | false =>
      have hcond : ¬ (inl.contains m.objIdx = true) := by
        rw [hinl]; exact Bool.false_ne_true
      have heq := filteredNodes_cons_keep rest hinl
      rw [specMeta, if_neg hcond]
      rw [heq] at hn hnd
      simp only [List.map_cons, List.nodup_cons] at hnd
      rcases List.mem_cons.mp hn with hnm | hn'
      · subst hnm
        rw [aLookup, if_pos rfl]
      · have hne : m.objIdx ≠ n.objIdx := by
          intro hcontra
          exact hnd.1 (hcontra ▸ List.mem_map_of_mem TNode.objIdx hn')
        rw [aLookup, if_neg hne]
        exact ih n hn' hnd.2

/-- The entry PASS 3 builds for a node, with total lookups. -/
def entryOfD (P : List (Int × Nat)) (M : List (Int × (List TNode × List TNode)))
    (n : TNode) : PEntry :=
  let wp := (aLookup P n.objIdx).getD 0
  let m := (aLookup M n.objIdx).getD ([], [])
  ⟨n.objOffset, n.objIdx, wp,
    m.1.map (fun c => (((aLookup P c.objIdx).getD 0 : Int) - (wp : Int)) * 4),
    m.2.map TNode.objOffset⟩

theorem mkChildOffsets_spec (P : List (Int × Nat)) (wp : Nat) :
    ∀ (cs : List TNode) (os : List Int), mkChildOffsets P wp cs = .ok os →
    os = cs.map (fun c => (((aLookup P c.objIdx).getD 0 : Int) - (wp : Int)) * 4) := by
  intro cs
  induction cs with
  | nil =>
    intro os h
    rw [mkChildOffsets] at h
    cases h
    rfl
  | cons c rest ih =>
    intro os h
    rw [mkChildOffsets] at h
    cases hl : aLookup P c.objIdx with
    | none => rw [hl] at h; cases h
    | some cp =>
      rw [hl] at h
      cases hr : mkChildOffsets P wp rest with
      | error e => rw [hr] at h; cases h
      | ok os' =>
        rw [hr] at h
        cases h
        rw [ih os' hr]
        simp [hl]

theorem pass3_spec (inl : List Int) (P : List (Int × Nat))
    (M : List (Int × (List TNode × List TNode))) :
    ∀ (l : List TNode) (es : List PEntry), pass3 inl P M l = .ok es →
    es = (filteredNodes inl l).map (entryOfD P M) := by
  intro l
  induction l with
  | nil =>
    intro es h
    rw [pass3] at h
    cases h
    rfl
  | cons n rest ih =>
    intro es h
    rw [pass3] at h
    cases hinl : inl.contains n.objIdx with
    | true =>
      rw [if_pos hinl] at h
      rw [filteredNodes_cons_inl rest hinl]
      exact ih es h
    | false =>
      have hcond : ¬ (inl.contains n.objIdx = true) := by
        rw [hinl]; exact Bool.false_ne_true
      rw [if_neg hcond] at h
      rw [filteredNodes_cons_keep rest hinl]
      cases hp : aLookup P n.objIdx with
      | none => simp only [hp] at h; exact Except.noConfusion h
      | some wp =>
        cases hm : aLookup M n.objIdx with
        | none => simp only [hp, hm] at h; exact Except.noConfusion h
        | some m =>
          simp only [hp, hm] at h
          cases hco : mkChildOffsets P wp m.1 with
          | error e => simp only [hco] at h; exact Except.noConfusion h
          | ok cos =>
            simp only [hco] at h
            cases hrest : pass3 inl P M rest with
            | error e => simp only [hrest] at h; exact Except.noConfusion h
            | ok es' =>
              simp only [hrest, Except.ok.injEq] at h
              subst h
              rw [ih es' hrest, List.map_cons]
              congr 1
              rw [mkChildOffsets_spec P wp m.1 cos hco]
              rw [entryOfD]
              simp [hp, hm]

theorem totalW_eq_sum (inl : List Int) :
    ∀ l : List TNode, totalW inl l = ((filteredNodes inl l).map sizeW).sum := by
  intro l
  induction l with
  | nil => rfl
  | cons n rest ih =>
    cases hinl : inl.contains n.objIdx with
    | true =>
      rw [totalW, if_pos hinl, filteredNodes_cons_inl rest hinl, ih]
      simp
    | false =>
      have hcond : ¬ (inl.contains n.objIdx = true) := by
        rw [hinl]; exact Bool.false_ne_true
      rw [totalW, if_neg hcond, filteredNodes_cons_keep rest hinl, ih]
      simp

theorem sum_map_len_le32i (l : List Int) :
    (l.map (List.length ∘ le32i)).sum = 4 * l.length := by
  induction l with
  | nil => rfl
  | cons a l ih => simp only [List.map_cons, List.sum_cons, ih]; simp [le32i, le32]; omega

theorem sum_map_len_le64 (l : List Nat) :
    (l.map (List.length ∘ le64)).sum = 8 * l.length := by
  induction l with
  | nil => rfl
  | cons a l ih => simp only [List.map_cons, List.sum_cons, ih]; simp [le64]; omega

theorem dumpEntry_length (e : PEntry) : (dumpEntry e).length
    = 16 + 4 * e.childOffsets.length + 8 * e.inlineChildOffsets.length := by
  simp [dumpEntry, le64, le32, sum_map_len_le32i, sum_map_len_le64]
  omega

theorem dump_entryOfD_length (P : List (Int × Nat))
    (M : List (Int × (List TNode × List TNode))) (n : TNode)
    (hm : aLookup M n.objIdx = some (nodeEwc n, nodeEwoc n)) :
    (dumpEntry (entryOfD P M n)).length = 4 * sizeW n := by
  rw [dumpEntry_length]
  simp [entryOfD, hm, sizeW]
  omega

theorem foldl_write : ∀ (es : List PEntry) (w : Nat) (buf : List Nat),
    (∀ k (hk : k < es.length), 4 * (es.get ⟨k, hk⟩).nodeWordPos
        = w + (((es.take k).map (fun e => (dumpEntry e).length)).sum)) →
    buf.length = w + ((es.map (fun e => (dumpEntry e).length)).sum) →
    es.foldl (fun b e => writeBytesAt b (4 * e.nodeWordPos) (dumpEntry e)) buf
      = buf.take w ++ (es.map dumpEntry).flatten := by
  intro es
  induction es with
  | nil =>
    intro w buf _ hlen
    simp only [List.map_nil, List.sum_nil, Nat.add_zero] at hlen
    simp [← hlen]
  | cons e es ih =>
    intro w buf hpos hlen
    have h0 : 4 * e.nodeWordPos = w := by
      have := hpos 0 (by simp)
      simpa using this
    have hlen2 : buf.length
        = w + ((dumpEntry e).length + ((es.map (fun e => (dumpEntry e).length)).sum)) := by
      simpa using hlen
    have hwle : w + (dumpEntry e).length ≤ buf.length := by omega
    have hwle0 : w ≤ buf.length := by omega
    show (es.foldl _ (writeBytesAt buf (4 * e.nodeWordPos) (dumpEntry e))) = _
    rw [h0]
    have hbuf' : writeBytesAt buf w (dumpEntry e)
        = (buf.take w ++ dumpEntry e) ++ buf.drop (w + (dumpEntry e).length) := by
      rw [writeBytesAt, List.append_assoc]
    have hablen : (buf.take w ++ dumpEntry e).length = w + (dumpEntry e).length := by
      simp [take_length_of_le hwle0]
    have hlen' : (writeBytesAt buf w (dumpEntry e)).length = buf.length := by
      rw [hbuf']
      simp [take_length_of_le hwle0]
      omega
    have hpos' : ∀ k (hk : k < es.length), 4 * (es.get ⟨k, hk⟩).nodeWordPos
        = (w + (dumpEntry e).length)
          + (((es.take k).map (fun e => (dumpEntry e).length)).sum) := by
      intro k hk
      have hstep := hpos (k + 1) (by simpa using Nat.succ_lt_succ hk)
      simp only [List.get_cons_succ, List.take_succ_cons, List.map_cons,
        List.sum_cons] at hstep
      omega
    have hlen'' : (writeBytesAt buf w (dumpEntry e)).length
        = (w + (dumpEntry e).length) + ((es.map (fun e => (dumpEntry e).length)).sum) := by
      rw [hlen']
      omega
    rw [ih (w + (dumpEntry e).length) _ hpos' hlen'']
    have htake : (writeBytesAt buf w (dumpEntry e)).take (w + (dumpEntry e).length)
        = buf.take w ++ dumpEntry e := by
      rw [hbuf', List.take_left' hablen]
    rw [htake]
    simp

theorem zip_map_fst {α β : Type} (f : α → β) :
    ∀ (l : List α) (pr : β × α), pr ∈ (l.map f).zip l → pr.1 = f pr.2 := by
  intro l
  induction l with
  | nil => intro pr h; simp at h
  | cons a l ih =>
    intro pr h
    rcases List.mem_cons.mp h with h1 | h1
    · rw [h1]
    · exact ih pr h1

theorem sum_map_four_mul (l : List TNode) :
    (l.map (fun n => 4 * sizeW n)).sum = 4 * (l.map sizeW).sum := by
  induction l with
  | nil => rfl
  | cons n l ih => simp [ih]; omega

/-- C2 amended theorem.  For every tree with pairwise-distinct node indices
that `encode_section` accepts: each element of an entry's child-offsets array
equals `4 *` (the child's assigned word position minus the node's word
position) — the relative *byte* offset, not the word offset — and the word
positions are genuine byte locations: the emitted section is exactly the
concatenation of the entry records in order, the record of the `k`-th entry
starting at byte `4 * nodeWordPos` = the summed sizes of the previous
records, with the section `4 * totalWords` bytes long. -/
theorem c2_amended (t : TNode) (r : EncResult) (bs : List Nat)
    (hok : encodeCore t = .ok r) (hbs : encode_section t = .ok bs)
    (hnodup : ((flattenT t).map TNode.objIdx).Nodup) :
    bs = (r.entries.map dumpEntry).flatten ∧
    (∀ e ∈ r.entries,
      ∀ pr ∈ e.childOffsets.zip ((aLookup r.meta e.nodeIdx).getD ([], [])).1,
        pr.1 = (((aLookup r.positions pr.2.objIdx).getD 0 : Int)
          - (e.nodeWordPos : Int)) * 4) ∧
    (∀ k (hk : k < r.entries.length),
        4 * (r.entries.get ⟨k, hk⟩).nodeWordPos
          = ((r.entries.take k).map (fun e => (dumpEntry e).length)).sum) ∧
    bs.length = 4 * r.totalWords := by
  rw [encodeCore] at hok
  cases hp2 : pass2 (markInlineT t) (flattenT t) ⟨[], [], 0⟩ with
  | error e => simp only [hp2] at hok; exact Except.noConfusion hok
  | ok st =>
    simp only [hp2] at hok
    cases hp3 : pass3 (markInlineT t) st.positions st.meta (flattenT t) with
    | error e => simp only [hp3] at hok; exact Except.noConfusion hok
    | ok es =>
      simp only [hp3, Except.ok.injEq] at hok
      cases hok
      simp only [encode_section, encodeCore, hp2, hp3, Except.ok.injEq] at hbs
      cases hbs
      have hfnd : ((filteredNodes (markInlineT t) (flattenT t)).map TNode.objIdx).Nodup :=
        List.Nodup.sublist
          (List.Sublist.map TNode.objIdx (List.filter_sublist (flattenT t))) hnodup
      obtain ⟨hP, hM, hC⟩ := pass2_shape (markInlineT t) (flattenT t) ⟨[], [], 0⟩ st hfnd
        (fun n _ => rfl) (fun n _ => rfl) hp2
      simp only [List.nil_append] at hP hM
      have hes : es = (filteredNodes (markInlineT t) (flattenT t)).map
          (entryOfD st.positions st.meta) := pass3_spec _ _ _ _ es hp3
      set F := filteredNodes (markInlineT t) (flattenT t) with hF
      -- per-entry dump lengths
      have hdlen : ∀ n ∈ F, (dumpEntry (entryOfD st.positions st.meta n)).length
          = 4 * sizeW n := by
        intro n hn
        exact dump_entryOfD_length _ _ n (hM ▸ specMeta_lookup _ _ n hn hfnd)
      -- conjunct 3 (prefix sums)
      have hpos : ∀ k (hk : k < es.length),
          4 * (es.get ⟨k, hk⟩).nodeWordPos
            = ((es.take k).map (fun e => (dumpEntry e).length)).sum := by
        intro k hk
        have hkF : k < F.length := by rw [hes] at hk; simpa using hk
        have hget? : es[k]? = some (entryOfD st.positions st.meta (F.get ⟨k, hkF⟩)) := by
          rw [hes, List.getElem?_map, List.getElem?_eq_getElem hkF]
          simp [List.get_eq_getElem]
        have hself : es[k]? = some (es.get ⟨k, hk⟩) := by
          rw [List.getElem?_eq_getElem hk]
          simp [List.get_eq_getElem]
        have hget : es.get ⟨k, hk⟩ = entryOfD st.positions st.meta (F.get ⟨k, hkF⟩) :=
          Option.some.inj (hself.symm.trans hget?)
        have hq : aLookup st.positions ((F.get ⟨k, hkF⟩).objIdx)
            = some (0 + ((F.take k).map sizeW).sum) := by
          rw [hP]
          refine specPos_lookup _ _ 0 k _ ?_ hfnd
          rw [List.getElem?_eq_getElem hkF]
          simp [List.get_eq_getElem]
        have hwp : (es.get ⟨k, hk⟩).nodeWordPos = ((F.take k).map sizeW).sum := by
          rw [hget]
          show (aLookup st.positions ((F.get ⟨k, hkF⟩).objIdx)).getD 0 = _
          rw [hq]
          simp
        have htail : ((es.take k).map (fun e => (dumpEntry e).length)).sum
            = 4 * ((F.take k).map sizeW).sum := by
          rw [hes, ← List.map_take, List.map_map]
          have hcg : ((F.take k).map
              (fun n => (dumpEntry (entryOfD st.positions st.meta n)).length))
              = (F.take k).map (fun n => 4 * sizeW n) := by
            apply List.map_congr_left
            intro n hn
            exact hdlen n (List.take_subset k F hn)
          show ((F.take k).map
            ((fun e => (dumpEntry e).length) ∘ (entryOfD st.positions st.meta))).sum = _
          rw [show (F.take k).map
              ((fun e => (dumpEntry e).length) ∘ (entryOfD st.positions st.meta))
              = (F.take k).map
                (fun n => (dumpEntry (entryOfD st.positions st.meta n)).length) from rfl,
            hcg, sum_map_four_mul]
        rw [hwp, htail]
      -- total size
      have hsum : ((es.map (fun e => (dumpEntry e).length)).sum) = 4 * st.cur := by
        rw [hes, List.map_map]
        have hcg : F.map ((fun e => (dumpEntry e).length) ∘ (entryOfD st.positions st.meta))
            = F.map (fun n => 4 * sizeW n) := by
          apply List.map_congr_left
          intro n hn
          exact hdlen n hn
        rw [hcg, sum_map_four_mul, hC, totalW_eq_sum]
        simp
      -- conjunct 1 via foldl_write
      have hbuf : (List.replicate (st.cur * 4) 0).length
          = 0 + ((es.map (fun e => (dumpEntry e).length)).sum) := by
        rw [hsum, List.length_replicate]
        omega
      have hfold := foldl_write es 0 (List.replicate (st.cur * 4) 0)
        (fun k hk => by rw [hpos k hk]; simp) hbuf
      refine ⟨by rw [hfold, List.take_zero, List.nil_append], ?_, hpos, ?_⟩
      · intro e he pr hpr
        rw [hes] at he
        obtain ⟨n, hn, rfl⟩ := List.mem_map.mp he
        have hmn : aLookup st.meta ((entryOfD st.positions st.meta n).nodeIdx)
            = some (nodeEwc n, nodeEwoc n) := by
          rw [show (entryOfD st.positions st.meta n).nodeIdx = n.objIdx from rfl]
          exact hM ▸ specMeta_lookup _ _ n hn hfnd
        rw [hmn] at hpr
        have hco : (entryOfD st.positions st.meta n).childOffsets
            = (nodeEwc n).map (fun c =>
                (((aLookup st.positions c.objIdx).getD 0 : Int)
                  - (((aLookup st.positions n.objIdx).getD 0 : Nat) : Int)) * 4) := by
          rw [entryOfD]
          simp [hM ▸ specMeta_lookup _ _ n hn hfnd]
        rw [hco] at hpr
        have := zip_map_fst _ (nodeEwc n) pr hpr
        rw [this]
        rfl
      · rw [hfold, List.take_zero, List.nil_append, List.length_flatten, List.map_map]
        rw [show (es.map (List.length ∘ dumpEntry))
            = es.map (fun e => (dumpEntry e).length) from rfl, hsum]

/-- Witness for the amended C2 theorem at the concrete `c2ClaimTree`. -/
theorem c2_amended_witness :
    ∃ r bs, encodeCore c2ClaimTree = .ok r ∧ encode_section c2ClaimTree = .ok bs ∧
      (bs = (r.entries.map dumpEntry).flatten ∧
       (∀ e ∈ r.entries,
         ∀ pr ∈ e.childOffsets.zip ((aLookup r.meta e.nodeIdx).getD ([], [])).1,
           pr.1 = (((aLookup r.positions pr.2.objIdx).getD 0 : Int)
             - (e.nodeWordPos : Int)) * 4) ∧
       (∀ k (hk : k < r.entries.length),
           4 * (r.entries.get ⟨k, hk⟩).nodeWordPos
             = ((r.entries.take k).map (fun e => (dumpEntry e).length)).sum) ∧
       bs.length = 4 * r.totalWords) := by
  match hok : encodeCore c2ClaimTree with
  | .error e =>
    have hko : (encodeCore c2ClaimTree).isOk = true := by decide
    rw [hok] at hko
    exact Bool.noConfusion hko
  | .ok r =>
    match hbs : encode_section c2ClaimTree with
    | .error e =>
      have hko : (encode_section c2ClaimTree).isOk = true := by decide
      rw [hbs] at hko
      exact Bool.noConfusion hko
    | .ok bs =>
      exact ⟨r, bs, rfl, rfl, c2_amended c2ClaimTree r bs hok hbs (by decide)⟩

/-! ## build_nc_tree (section_encoder_clean.py, lines 12-107)

`dn_to_info` is an insertion-ordered dict from DN to
`{'obj_idx', 'obj_offset', 'dn'}`; synthetic placeholders get negative
indices.  The ancestor walk (`while current and current not in dn_to_info`)
strictly shortens `current` via `get_parent_dn`, so it is modelled with a
length-based fuel (`walkUp` passes `cur.length + 1`, which the length-drop
lemma for `get_parent_dn` shows is never exhausted).  Likewise Python's
unbounded `build_node` recursion descends edges that strictly increase DN
length (every recorded child has its parent as its own parent-extraction),
so depth is bounded by the longest key and `maxLenL keys + 1` fuel is
exact. -/

/-- One `dn_to_info` value. -/
structure NInfo where
  objIdx : Int
  objOffset : Nat
deriving DecidableEq, Inhabited

/-- Dict lookup on `dn_to_info`. -/
def dmLookup (m : List (List Char × NInfo)) (k : List Char) : Option NInfo :=
  match m with
  | [] => none
  | e :: rest => if e.1 = k then some e.2 else dmLookup rest k

/-- Dict assignment on `dn_to_info` (replace in place, else append). -/
def dmInsert (m : List (List Char × NInfo)) (k : List Char) (v : NInfo) :
    List (List Char × NInfo) :=
  match m with
  | [] => [(k, v)]
  | e :: rest => if e.1 = k then (e.1, v) :: rest else e :: dmInsert rest k v

/-- `current in dn_to_info`. -/
def dmMem (m : List (List Char × NInfo)) (k : List Char) : Bool :=
  (dmLookup m k).isSome

/-- `children_map[k]` of the `defaultdict(list)`. -/
def cmGet (cm : List (List Char × List (List Char))) (k : List Char) :
    List (List Char) :=
  match cm with
  | [] => []
  | e :: rest => if e.1 = k then e.2 else cmGet rest k

/-- `children_map[k].append(c)`. -/
def cmAppend (cm : List (List Char × List (List Char))) (k c : List Char) :
    List (List Char × List (List Char)) :=
  match cm with
  | [] => [(k, [c])]
  | e :: rest => if e.1 = k then (e.1, e.2 ++ [c]) :: rest else e :: cmAppend rest k c

/-- The mutable state of `build_nc_tree`'s main loop. -/
structure BState where
  info : List (List Char × NInfo)
  cmap : List (List Char × List (List Char))
  newly : List (List Char)
  nextSyn : Int
  coll : List (List Char)

/-- The keys of `dn_to_info`. -/
def keys (st : BState) : List (List Char) := st.info.map Prod.fst

/-- Creation of one synthetic placeholder: record in the collector dict
(insertion-ordered, idempotent), give it the next negative index with
offset 0, and remember it in `newly_created`. -/
def addSyn (st : BState) (c : List Char) : BState :=
  ⟨st.info ++ [(c, ⟨st.nextSyn, 0⟩)], st.cmap, st.newly ++ [c], st.nextSyn - 1,
   if st.coll.contains c then st.coll else st.coll ++ [c]⟩

/-- The ancestor walk
`while current and current not in dn_to_info: ...` with explicit length
fuel. -/
def walkUpF (filt : List Char → Bool) (root : List Char) :
    Nat → BState → List Char → BState
  | 0, st, _ => st
  | fuel + 1, st, cur =>
    if dmMem st.info cur then st
    else
      let st1 := if filt cur then addSyn st cur else st
      match get_parent_dn cur with
      | none => st1
      | some p => if p = root then st1 else walkUpF filt root fuel st1 p

/-- The ancestor walk entered at `cur` (fuel `cur.length + 1` is exact
because `get_parent_dn` strictly shortens its argument). -/
def walkUp (filt : List Char → Bool) (root : List Char) (st : BState)
    (cur : List Char) : BState :=
  walkUpF filt root (cur.length + 1) st cur

/-- One iteration of the main loop of `build_nc_tree`. -/
def processDN (filt : List Char → Bool) (root : List Char) (st : BState)
    (dn : List Char) : BState :=
  if dn = root then st
  else
    match get_parent_dn dn with
    | none => st
    | some p =>
      let st1 := walkUp filt root st p
      if dmMem st1.info p then
        ⟨st1.info, cmAppend st1.cmap p dn, st1.newly, st1.nextSyn, st1.coll⟩
      else st1

/-- One iteration of the `newly_created` post-loop. -/
def newlyStep (st : BState) (dn : List Char) : BState :=
  match get_parent_dn dn with
  | none => st
  | some p =>
    if dmMem st.info p then
      ⟨st.info, cmAppend st.cmap p dn, st.newly, st.nextSyn, st.coll⟩
    else st

/-- `min(dn_to_info.keys(), key=len)` — Python `min` keeps the first
minimum. -/
def minGo (acc : List Char) : List (List Char) → List Char
  | [] => acc
  | y :: ys => if y.length < acc.length then minGo y ys else minGo acc ys

def minByLen : List (List Char) → List Char
  | [] => []
  | x :: xs => minGo x xs

/-- Length of the longest key (used to bound `build_node`'s depth). -/
def maxLenL : List (List Char) → Nat
  | [] => 0
  | x :: xs => max x.length (maxLenL xs)

/-- The recursive `build_node`, with depth fuel. -/
def buildNode (cm : List (List Char × List (List Char)))
    (info : List (List Char × NInfo)) : Nat → List Char → TNode
  | 0, dn =>
    let i := (dmLookup info dn).getD ⟨0, 0⟩
    .mk dn i.objIdx i.objOffset .nil
  | fuel + 1, dn =>
    let i := (dmLookup info dn).getD ⟨0, 0⟩
    .mk dn i.objIdx i.objOffset
      (toTNodes ((cmGet cm dn).map (buildNode cm info fuel)))

/-- `build_nc_tree` from section_encoder_clean.py, returning the tree and
the updated synthetic collector. -/
def build_nc_tree (offsets : List Nat) (nc_root : List Char)
    (filt : List Char → Bool) (dncache : List (List Char × Nat))
    (coll0 : List (List Char)) : Option TNode × List (List Char) :=
  let info0 := dncache.foldl
    (fun m e => if filt e.1 then dmInsert m e.1 ⟨(e.2 : Int), offsets.getD e.2 0⟩
      else m) []
  if info0.isEmpty then (none, coll0)
  else
    let st0 : BState := ⟨info0, [], [], -1, coll0⟩
    let st1 := (info0.map Prod.fst).foldl (processDN filt nc_root) st0
    let st2 := st1.newly.foldl newlyStep st1
    let rootDn := minByLen (st2.info.map Prod.fst)
    let fuel := maxLenL (st2.info.map Prod.fst) + 1
    (some (buildNode st2.cmap st2.info fuel rootDn), st2.coll)

/-- C1 counterexample.  With the cache `{DC=a ↦ 0, CN=x,DC=b ↦ 1}`, NC root
`DC=a` and an all-true membership predicate, `build_nc_tree` returns a tree
whose only node is `DC=a`: the cached, predicate-matching DN `CN=x,DC=b`
(whose parent chain never reaches the root) is silently dropped from the
returned tree, refuting the unconditional completeness claim. -/
theorem c1_counterexample :
    Option.map treeDNs (build_nc_tree [0, 0] ("DC=a".toList) (fun _ => true)
        [(("DC=a".toList), 0), (("CN=x,DC=b".toList), 1)] []).1
      = some [("DC=a".toList)] ∧
    (("CN=x,DC=b".toList), 1)
      ∈ [(("DC=a".toList), 0), (("CN=x,DC=b".toList), 1)] ∧
    (fun (_ : List Char) => true) ("CN=x,DC=b".toList) = true ∧
    ("CN=x,DC=b".toList) ∉ [("DC=a".toList)] := by
  exact ⟨by decide, by decide, rfl, by decide⟩

/-! Hypothesis language for the amended C1 claim: a DN's parent chain stays
inside the membership predicate and reaches the NC root. -/

/-- Fueled chain check. -/
def chainOKF (filt : List Char → Bool) (root : List Char) :
    Nat → List Char → Bool
  | 0, _ => false
  | fuel + 1, dn =>
    if dn = root then true
    else
      match get_parent_dn dn with
      | none => false
      | some p => filt p && chainOKF filt root fuel p

/-- `dn`'s repeated unescaped-comma parent extraction reaches `root`, every
strict intermediate (and the root) satisfying `filt`. -/
def chainOK (filt : List Char → Bool) (root dn : List Char) : Bool :=
  chainOKF filt root (dn.length + 1) dn

theorem chainOKF_irrel (filt : List Char → Bool) (root : List Char) :
    ∀ (f1 : Nat) (dn : List Char) (f2 : Nat), dn.length < f1 → dn.length < f2 →
    chainOKF filt root f1 dn = chainOKF filt root f2 dn := by
  intro f1
  induction f1 with
  | zero => intro dn f2 h1; omega
  | succ f1 ih =>
    intro dn f2 h1 h2
    cases f2 with
    | zero => omega
    | succ f2 =>
      rw [chainOKF, chainOKF]
      by_cases hr : dn = root
      · rw [if_pos hr, if_pos hr]
      · rw [if_neg hr, if_neg hr]
        cases hp : get_parent_dn dn with
        | none => rfl
        | some p =>
          have hlt := (gpd_length hp).1
          show (filt p && chainOKF filt root f1 p) = (filt p && chainOKF filt root f2 p)
          rw [ih p f2 (by omega) (by omega)]

/-- One-step unfolding of `chainOK`. -/
theorem chainOK_unfold (filt : List Char → Bool) (root dn : List Char) :
    chainOK filt root dn
      = if dn = root then true
        else match get_parent_dn dn with
          | none => false
          | some p => filt p && chainOK filt root p := by
  rw [chainOK, chainOKF]
  by_cases hr : dn = root
  · rw [if_pos hr, if_pos hr]
  · rw [if_neg hr, if_neg hr]
    cases hp : get_parent_dn dn with
    | none => rfl
    | some p =>
      have hlt := (gpd_length hp).1
      show (filt p && chainOKF filt root dn.length p) = (filt p && chainOK filt root p)
      rw [chainOKF_irrel filt root dn.length p (p.length + 1) (by omega) (by omega)]
      rfl

theorem chainOK_root (filt : List Char → Bool) (root : List Char) :
    chainOK filt root root = true := by
  rw [chainOK_unfold, if_pos rfl]

theorem chainOK_step {filt : List Char → Bool} {root dn : List Char}
    (h : chainOK filt root dn = true) (hne : dn ≠ root) :
    ∃ p, get_parent_dn dn = some p ∧ filt p = true ∧ chainOK filt root p = true := by
  rw [chainOK_unfold, if_neg hne] at h
  cases hp : get_parent_dn dn with
  | none => rw [hp] at h; cases h
  | some p =>
    rw [hp] at h
    exact ⟨p, rfl, (Bool.and_eq_true_iff.mp h).1, (Bool.and_eq_true_iff.mp h).2⟩

theorem chainOK_length {filt : List Char → Bool} {root : List Char} :
    ∀ (n : Nat) (dn : List Char), dn.length ≤ n → chainOK filt root dn = true →
    root.length ≤ dn.length ∧ (dn ≠ root → root.length < dn.length) := by
  intro n
  induction n with
  | zero =>
    intro dn hlen h
    by_cases hr : dn = root
    · subst hr; exact ⟨le_refl _, fun hc => absurd rfl hc⟩
    · obtain ⟨p, hp, _, _⟩ := chainOK_step h hr
      have := (gpd_length hp).1
      omega
  | succ n ih =>
    intro dn hlen h
    by_cases hr : dn = root
    · subst hr; exact ⟨le_refl _, fun hc => absurd rfl hc⟩
    · obtain ⟨p, hp, _, hcp⟩ := chainOK_step h hr
      have hlt := (gpd_length hp).1
      have := ih p (by omega) hcp
      exact ⟨by omega, fun _ => by omega⟩

/-- The strict ancestor list of `dn` up to `root` (fueled like `chainOK`). -/
def ancestorsToF (root : List Char) : Nat → List Char → List (List Char)
  | 0, _ => []
  | fuel + 1, dn =>
    if dn = root then []
    else
      match get_parent_dn dn with
      | none => []
      | some p => p :: ancestorsToF root fuel p

def ancestorsTo (root dn : List Char) : List (List Char) :=
  ancestorsToF root (dn.length + 1) dn

theorem ancestorsToF_irrel (root : List Char) :
    ∀ (f1 : Nat) (dn : List Char) (f2 : Nat), dn.length < f1 → dn.length < f2 →
    ancestorsToF root f1 dn = ancestorsToF root f2 dn := by
  intro f1
  induction f1 with
  | zero => intro dn f2 h1; omega
  | succ f1 ih =>
    intro dn f2 h1 h2
    cases f2 with
    | zero => omega
    | succ f2 =>
      rw [ancestorsToF, ancestorsToF]
      by_cases hr : dn = root
      · rw [if_pos hr, if_pos hr]
      · rw [if_neg hr, if_neg hr]
        cases hp : get_parent_dn dn with
        | none => rfl
        | some p =>
          have hlt := (gpd_length hp).1
          show p :: ancestorsToF root f1 p = p :: ancestorsToF root f2 p
          rw [ih p f2 (by omega) (by omega)]

theorem ancestorsTo_unfold (root dn : List Char) :
    ancestorsTo root dn
      = if dn = root then []
        else match get_parent_dn dn with
          | none => []
          | some p => p :: ancestorsTo root p := by
  rw [ancestorsTo, ancestorsToF]
  by_cases hr : dn = root
  · rw [if_pos hr, if_pos hr]
  · rw [if_neg hr, if_neg hr]
    cases hp : get_parent_dn dn with
    | none => rfl
    | some p =>
      have hlt := (gpd_length hp).1
      show p :: ancestorsToF root dn.length p = p :: ancestorsTo root p
      rw [ancestorsToF_irrel root dn.length p (p.length + 1) (by omega) (by omega)]
      rfl

theorem dmMem_iff (m : List (List Char × NInfo)) (k : List Char) :
    dmMem m k = true ↔ k ∈ m.map Prod.fst := by
  induction m with
  | nil => simp [dmMem, dmLookup]
  | cons e rest ih =>
    by_cases he : e.1 = k
    · simp [dmMem, dmLookup, he]
    · show (if e.1 = k then some e.2 else dmLookup rest k).isSome = true ↔ _
      rw [if_neg he]
      simp only [List.map_cons, List.mem_cons]
      constructor
      · intro h
        exact Or.inr (ih.mp h)
      · intro h
        rcases h with h | h
        · exact absurd h.symm he
        · exact ih.mpr h

theorem cmGet_cmAppend (cm : List (List Char × List (List Char)))
    (k x q : List Char) :
    cmGet (cmAppend cm k x) q
      = if q = k then cmGet cm k ++ [x] else cmGet cm q := by
  induction cm with
  | nil =>
    by_cases hq : q = k
    · subst hq
      simp [cmAppend, cmGet]
    · have hq' : ¬ (k = q) := fun h => hq h.symm
      simp [cmAppend, cmGet, hq, hq']
  | cons e rest ih =>
    by_cases he : e.1 = k
    · rw [show cmAppend (e :: rest) k x = (e.1, e.2 ++ [x]) :: rest from by
        rw [cmAppend, if_pos he]]
      by_cases hq : q = k
      · subst hq
        rw [show cmGet ((e.1, e.2 ++ [x]) :: rest) q
            = if e.1 = q then e.2 ++ [x] else cmGet rest q from rfl]
        rw [if_pos he, if_pos rfl,
          show cmGet (e :: rest) q = if e.1 = q then e.2 else cmGet rest q from rfl,
          if_pos he]
      · have hne : ¬ (e.1 = q) := fun h => hq ((h.symm.trans he))
        rw [show cmGet ((e.1, e.2 ++ [x]) :: rest) q
            = if e.1 = q then e.2 ++ [x] else cmGet rest q from rfl]
        rw [if_neg hne, if_neg hq,
          show cmGet (e :: rest) q = if e.1 = q then e.2 else cmGet rest q from rfl,
          if_neg hne]
    · rw [show cmAppend (e :: rest) k x = e :: cmAppend rest k x from by
        rw [cmAppend, if_neg he]]
      rw [show cmGet (e :: cmAppend rest k x) q
          = if e.1 = q then e.2 else cmGet (cmAppend rest k x) q from rfl]
      by_cases hq2 : e.1 = q
      · have hqk : ¬ (q = k) := fun h => he (hq2.trans h)
        rw [if_pos hq2, if_neg hqk,
          show cmGet (e :: rest) q = if e.1 = q then e.2 else cmGet rest q from rfl,
          if_pos hq2]
      · rw [if_neg hq2, ih]
        by_cases hq : q = k
        · rw [if_pos hq, if_pos hq,
            show cmGet (e :: rest) k = if e.1 = k then e.2 else cmGet rest k from rfl,
            if_neg he]
        · rw [if_neg hq, if_neg hq,
            show cmGet (e :: rest) q = if e.1 = q then e.2 else cmGet rest q from rfl,
            if_neg hq2]

/-- The loop invariant of `build_nc_tree` over the original key list `K`,
with an optional "pending" DN whose synthetic entry is being walked (its
parent may not yet be present). -/
def BInvP (filt : List Char → Bool) (root : List Char) (K : List (List Char))
    (pend : Option (List Char)) (st : BState) : Prop :=
  (∀ k ∈ keys st, filt k = true ∧ chainOK filt root k = true) ∧
  root ∈ keys st ∧
  (∀ s ∈ st.newly, s ≠ root ∧ ∃ p, get_parent_dn s = some p ∧
    (p ∈ keys st ∨ pend = some p)) ∧
  (∀ q c, c ∈ cmGet st.cmap q →
    get_parent_dn c = some q ∧ c ∈ keys st ∧ q ∈ keys st) ∧
  keys st = K ++ st.newly

theorem keys_addSyn (st : BState) (c : List Char) :
    keys (addSyn st c) = keys st ++ [c] := by
  simp [keys, addSyn]

theorem walkUp_ok (filt : List Char → Bool) (root : List Char)
    (K : List (List Char)) :
    ∀ (fuel : Nat) (st : BState) (cur : List Char),
    cur.length < fuel →
    BInvP filt root K (some cur) st →
    filt cur = true → chainOK filt root cur = true →
    BInvP filt root K none (walkUpF filt root fuel st cur) ∧
    (∃ added, (walkUpF filt root fuel st cur).info = st.info ++ added) ∧
    (walkUpF filt root fuel st cur).cmap = st.cmap ∧
    cur ∈ keys (walkUpF filt root fuel st cur) := by
  intro fuel
  induction fuel with
  | zero => intro st cur h; omega
  | succ fuel ih =>
    intro st cur hfuel hinv hfilt hchain
    obtain ⟨hall, hroot, hnewly, hcmap, hkeys⟩ := hinv
    cases hmem : dmMem st.info cur with
    | true =>
      have hred : walkUpF filt root (fuel + 1) st cur = st := by
        rw [walkUpF, if_pos hmem]
      rw [hred]
      have hcurk : cur ∈ keys st := (dmMem_iff _ _).mp hmem
      refine ⟨⟨hall, hroot, ?_, hcmap, hkeys⟩, ⟨[], by simp⟩, rfl, hcurk⟩
      intro s hs
      obtain ⟨hs1, p, hp, hp2⟩ := hnewly s hs
      refine ⟨hs1, p, hp, Or.inl ?_⟩
      rcases hp2 with h | h
      · exact h
      · cases h
        exact hcurk
    | false =>
      have hmem' : ¬ (dmMem st.info cur = true) := by
        rw [hmem]; exact Bool.false_ne_true
      have hcurnk : cur ∉ keys st := fun hc => hmem' ((dmMem_iff _ _).mpr hc)
      have hcurroot : cur ≠ root := fun hc => hcurnk (hc ▸ hroot)
      obtain ⟨p, hp, hfp, hcp⟩ := chainOK_step hchain hcurroot
      have hred : walkUpF filt root (fuel + 1) st cur
          = if p = root then addSyn st cur
            else walkUpF filt root fuel (addSyn st cur) p := by
        rw [walkUpF, if_neg hmem', if_pos hfilt, hp]
      rw [hred]
      -- facts about the state after addSyn
      have hk1 : keys (addSyn st cur) = keys st ++ [cur] := keys_addSyn st cur
      have hall1 : ∀ k ∈ keys (addSyn st cur),
          filt k = true ∧ chainOK filt root k = true := by
        intro k hk
        rw [hk1] at hk
        rcases List.mem_append.mp hk with h | h
        · exact hall k h
        · rw [List.mem_singleton.mp h]
          exact ⟨hfilt, hchain⟩
      have hroot1 : root ∈ keys (addSyn st cur) := by
        rw [hk1]; exact List.mem_append_left _ hroot
      have hcmap1 : ∀ q c, c ∈ cmGet (addSyn st cur).cmap q →
          get_parent_dn c = some q ∧ c ∈ keys (addSyn st cur)
            ∧ q ∈ keys (addSyn st cur) := by
        intro q c hc
        obtain ⟨h1, h2, h3⟩ := hcmap q c hc
        exact ⟨h1, by rw [hk1]; exact List.mem_append_left _ h2,
          by rw [hk1]; exact List.mem_append_left _ h3⟩
      have hkeys1 : keys (addSyn st cur) = K ++ (addSyn st cur).newly := by
        rw [hk1, hkeys]
        show _ = K ++ (st.newly ++ [cur])
        rw [List.append_assoc]
      by_cases hpr : p = root
      · rw [if_pos hpr]
        refine ⟨⟨hall1, hroot1, ?_, hcmap1, hkeys1⟩,
          ⟨[(cur, ⟨st.nextSyn, 0⟩)], rfl⟩, rfl, by rw [hk1]; simp⟩
        intro s hs
        rcases List.mem_append.mp hs with h | h
        · obtain ⟨hs1, ps, hps, hps2⟩ := hnewly s h
          refine ⟨hs1, ps, hps, Or.inl ?_⟩
          rcases hps2 with h2 | h2
          · rw [hk1]; exact List.mem_append_left _ h2
          · cases h2
            rw [hk1]; simp
        · rw [List.mem_singleton.mp h]
          refine ⟨hcurroot, p, hp, Or.inl ?_⟩
          rw [hpr]
          exact hroot1
      · rw [if_neg hpr]
        have hplen : p.length < fuel := by
          have := (gpd_length hp).1
          omega
        have hinv1 : BInvP filt root K (some p) (addSyn st cur) := by
          refine ⟨hall1, hroot1, ?_, hcmap1, hkeys1⟩
          intro s hs
          rcases List.mem_append.mp hs with h | h
          · obtain ⟨hs1, ps, hps, hps2⟩ := hnewly s h
            refine ⟨hs1, ps, hps, ?_⟩
            rcases hps2 with h2 | h2
            · exact Or.inl (by rw [hk1]; exact List.mem_append_left _ h2)
            · cases h2
              exact Or.inl (by rw [hk1]; simp)
          · rw [List.mem_singleton.mp h]
            exact ⟨hcurroot, p, hp, Or.inr rfl⟩
        obtain ⟨hinv', ⟨added, hadd⟩, hcm, hpk⟩ := ih (addSyn st cur) p hplen hinv1 hfp hcp
        refine ⟨hinv', ⟨(cur, ⟨st.nextSyn, 0⟩) :: added, ?_⟩, hcm, ?_⟩
        · rw [hadd]
          show _ = st.info ++ ((cur, _) :: added)
          rw [show (addSyn st cur).info = st.info ++ [(cur, ⟨st.nextSyn, 0⟩)] from rfl,
            List.append_assoc, List.singleton_append]
        · have : cur ∈ keys (addSyn st cur) := by rw [hk1]; simp
          rw [keys, hadd]
          rw [show (addSyn st cur).info = st.info ++ [(cur, ⟨st.nextSyn, 0⟩)] from rfl]
          simp

theorem BInvP_pend {filt : List Char → Bool} {root : List Char}
    {K : List (List Char)} {st : BState} (h : BInvP filt root K none st)
    (x : List Char) : BInvP filt root K (some x) st := by
  obtain ⟨h1, h2, h3, h4, h5⟩ := h
  refine ⟨h1, h2, ?_, h4, h5⟩
  intro s hs
  obtain ⟨hs1, p, hp, hp2⟩ := h3 s hs
  rcases hp2 with h | h
  · exact ⟨hs1, p, hp, Or.inl h⟩
  · cases h

theorem keys_mono {st st' : BState} {a : List (List Char × NInfo)}
    (h : st'.info = st.info ++ a) {k : List Char} (hk : k ∈ keys st) :
    k ∈ keys st' := by
  rw [keys, h, List.map_append]
  exact List.mem_append_left _ hk

theorem processDN_ok (filt : List Char → Bool) (root : List Char)
    (K : List (List Char)) (st : BState) (dn : List Char)
    (hinv : BInvP filt root K none st) (hdn : dn ∈ keys st) :
    BInvP filt root K none (processDN filt root st dn) ∧
    (∃ added, (processDN filt root st dn).info = st.info ++ added) ∧
    (∀ q c, c ∈ cmGet st.cmap q → c ∈ cmGet (processDN filt root st dn).cmap q) ∧
    (dn ≠ root → ∃ p, get_parent_dn dn = some p ∧
      dn ∈ cmGet (processDN filt root st dn).cmap p) := by
  by_cases hr : dn = root
  · rw [processDN, if_pos hr]
    exact ⟨hinv, ⟨[], by simp⟩, fun q c hc => hc, fun hc => absurd hr hc⟩
  · obtain ⟨hall, hroot, hnewly, hcmap, hkeys⟩ := hinv
    obtain ⟨p, hp, hfp, hcp⟩ := chainOK_step (hall dn hdn).2 hr
    have hred : processDN filt root st dn
        = if dmMem (walkUp filt root st p).info p
          then ⟨(walkUp filt root st p).info,
            cmAppend (walkUp filt root st p).cmap p dn,
            (walkUp filt root st p).newly, (walkUp filt root st p).nextSyn,
            (walkUp filt root st p).coll⟩
          else walkUp filt root st p := by
      rw [processDN, if_neg hr, hp]
    obtain ⟨hinv1, ⟨added, hadd⟩, hcm1, hpk⟩ :=
      walkUp_ok filt root K (p.length + 1) st p (by omega)
        (BInvP_pend ⟨hall, hroot, hnewly, hcmap, hkeys⟩ p) hfp hcp
    rw [show walkUpF filt root (p.length + 1) st p = walkUp filt root st p
      from rfl] at hinv1 hadd hcm1 hpk
    have hmemp : dmMem (walkUp filt root st p).info p = true :=
      (dmMem_iff _ _).mpr hpk
    rw [hred, if_pos hmemp]
    obtain ⟨hall1, hroot1, hnewly1, hcmap1, hkeys1⟩ := hinv1
    have hdnk1 : dn ∈ keys (walkUp filt root st p) := keys_mono hadd hdn
    constructor
    · refine ⟨hall1, hroot1, hnewly1, ?_, hkeys1⟩
      intro q c hc
      rw [cmGet_cmAppend] at hc
      by_cases hq : q = p
      · rw [if_pos hq] at hc
        rcases List.mem_append.mp hc with h | h
        · obtain ⟨h1, h2, h3⟩ := hcmap1 p c h
          exact ⟨hq ▸ h1, h2, hq ▸ h3⟩
        · rw [List.mem_singleton.mp h]
          exact ⟨hq ▸ hp, hdnk1, hq ▸ hpk⟩
      · rw [if_neg hq] at hc
        exact hcmap1 q c hc
    refine ⟨⟨added, hadd⟩, ?_, ?_⟩
    · intro q c hc
      show c ∈ cmGet (cmAppend (walkUp filt root st p).cmap p dn) q
      rw [cmGet_cmAppend, hcm1]
      by_cases hq : q = p
      · rw [if_pos hq]
        exact List.mem_append_left _ (hq ▸ hc)
      · rw [if_neg hq]
        exact hc
    · intro _
      refine ⟨p, hp, ?_⟩
      show dn ∈ cmGet (cmAppend (walkUp filt root st p).cmap p dn) p
      rw [cmGet_cmAppend, if_pos rfl]
      simp

theorem mainLoop_ok (filt : List Char → Bool) (root : List Char)
    (K : List (List Char)) :
    ∀ (ds : List (List Char)) (st : BState),
    BInvP filt root K none st → (∀ d ∈ ds, d ∈ keys st) →
    BInvP filt root K none (ds.foldl (processDN filt root) st) ∧
    (∃ added, (ds.foldl (processDN filt root) st).info = st.info ++ added) ∧
    (∀ q c, c ∈ cmGet st.cmap q
      → c ∈ cmGet (ds.foldl (processDN filt root) st).cmap q) ∧
    (∀ d ∈ ds, d ≠ root → ∃ p, get_parent_dn d = some p ∧
      d ∈ cmGet (ds.foldl (processDN filt root) st).cmap p) := by
  intro ds
  induction ds with
  | nil =>
    intro st hinv _
    exact ⟨hinv, ⟨[], by simp⟩, fun q c hc => hc, fun d hd => absurd hd (by simp)⟩
  | cons d ds ih =>
    intro st hinv hmem
    obtain ⟨hinv1, ⟨a1, ha1⟩, hcm1, hedge1⟩ :=
      processDN_ok filt root K st d hinv (hmem d (by simp))
    obtain ⟨hinv2, ⟨a2, ha2⟩, hcm2, hedge2⟩ := ih (processDN filt root st d) hinv1
      (fun d' hd' => keys_mono ha1 (hmem d' (List.mem_cons_of_mem _ hd')))
    show BInvP filt root K none (ds.foldl _ (processDN filt root st d)) ∧ _
    refine ⟨hinv2, ⟨a1 ++ a2, by rw [List.foldl_cons, ha2, ha1, List.append_assoc]⟩,
      fun q c hc => hcm2 q c (hcm1 q c hc), ?_⟩
    intro d' hd' hdr
    rcases List.mem_cons.mp hd' with h | h
    · subst h
      obtain ⟨p, hp, hin⟩ := hedge1 hdr
      exact ⟨p, hp, hcm2 p d' hin⟩
    · exact hedge2 d' h hdr

theorem newlyLoop_ok (filt : List Char → Bool) (root : List Char)
    (K : List (List Char)) :
    ∀ (ns : List (List Char)) (st : BState),
    BInvP filt root K none st →
    (∀ s ∈ ns, s ∈ keys st ∧ ∃ p, get_parent_dn s = some p ∧ p ∈ keys st) →
    (ns.foldl newlyStep st).info = st.info ∧
    (ns.foldl newlyStep st).newly = st.newly ∧
    BInvP filt root K none (ns.foldl newlyStep st) ∧
    (∀ q c, c ∈ cmGet st.cmap q → c ∈ cmGet (ns.foldl newlyStep st).cmap q) ∧
    (∀ s ∈ ns, ∃ p, get_parent_dn s = some p
      ∧ s ∈ cmGet (ns.foldl newlyStep st).cmap p) := by
  intro ns
  induction ns with
  | nil =>
    intro st hinv _
    exact ⟨rfl, rfl, hinv, fun q c hc => hc, fun s hs => absurd hs (by simp)⟩
  | cons s ns ih =>
    intro st hinv hmem
    obtain ⟨hsk, p, hp, hpk⟩ := hmem s (by simp)
    have hmemp : dmMem st.info p = true := (dmMem_iff _ _).mpr hpk
    have hred : newlyStep st s
        = ⟨st.info, cmAppend st.cmap p s, st.newly, st.nextSyn, st.coll⟩ := by
      simp only [newlyStep, hp]
      rw [if_pos hmemp]
    obtain ⟨hall, hroot, hnewly, hcmap, hkeys⟩ := hinv
    have hkeq : keys (newlyStep st s) = keys st := by rw [hred]; rfl
    have hinv1 : BInvP filt root K none (newlyStep st s) := by
      rw [hred]
      refine ⟨hall, hroot, hnewly, ?_, hkeys⟩
      intro q c hc
      replace hc : c ∈ cmGet (cmAppend st.cmap p s) q := hc
      rw [cmGet_cmAppend] at hc
      by_cases hq : q = p
      · rw [if_pos hq] at hc
        rcases List.mem_append.mp hc with h | h
        · obtain ⟨h1, h2, h3⟩ := hcmap p c h
          exact ⟨hq ▸ h1, h2, hq ▸ h3⟩
        · rw [List.mem_singleton.mp h]
          exact ⟨hq ▸ hp, hsk, hq ▸ hpk⟩
      · rw [if_neg hq] at hc
        exact hcmap q c hc
    obtain ⟨hi2, hn2, hinv2, hcm2, hedge2⟩ := ih (newlyStep st s) hinv1
      (fun s' hs' => by
        obtain ⟨h1, p', hp', hp2⟩ := hmem s' (List.mem_cons_of_mem _ hs')
        exact ⟨hkeq ▸ h1, p', hp', hkeq ▸ hp2⟩)
    rw [List.foldl_cons]
    refine ⟨by rw [hi2, hred], by rw [hn2, hred], hinv2, ?_, ?_⟩
    · intro q c hc
      refine hcm2 q c ?_
      rw [hred]
      show c ∈ cmGet (cmAppend st.cmap p s) q
      rw [cmGet_cmAppend]
      by_cases hq : q = p
      · rw [if_pos hq]
        exact List.mem_append_left _ (hq ▸ hc)
      · rw [if_neg hq]
        exact hc
    · intro s' hs'
      rcases List.mem_cons.mp hs' with h | h
      · subst h
        refine ⟨p, hp, hcm2 p s' ?_⟩
        rw [hred]
        show s' ∈ cmGet (cmAppend st.cmap p s') p
        rw [cmGet_cmAppend, if_pos rfl]
        simp
      · exact hedge2 s' h

/-! Decomposition of `build_nc_tree`'s pipeline into named stages, so that
the loop lemmas can be instantiated and the final tuple reassembled. -/

/-- The initial `dn_to_info` dict (predicate-filtered cache entries). -/
def bntInfo0 (offsets : List Nat) (filt : List Char → Bool)
    (dncache : List (List Char × Nat)) : List (List Char × NInfo) :=
  dncache.foldl
    (fun m e => if filt e.1 then dmInsert m e.1 ⟨(e.2 : Int), offsets.getD e.2 0⟩
      else m) []

/-- The state entering the main loop. -/
def bntSt0 (offsets : List Nat) (filt : List Char → Bool)
    (dncache : List (List Char × Nat)) (coll0 : List (List Char)) : BState :=
  ⟨bntInfo0 offsets filt dncache, [], [], -1, coll0⟩

/-- The state after the main loop. -/
def bntSt1 (offsets : List Nat) (nc_root : List Char) (filt : List Char → Bool)
    (dncache : List (List Char × Nat)) (coll0 : List (List Char)) : BState :=
  ((bntInfo0 offsets filt dncache).map Prod.fst).foldl (processDN filt nc_root)
    (bntSt0 offsets filt dncache coll0)

/-- The state after the `newly_created` post-loop. -/
def bntSt2 (offsets : List Nat) (nc_root : List Char) (filt : List Char → Bool)
    (dncache : List (List Char × Nat)) (coll0 : List (List Char)) : BState :=
  (bntSt1 offsets nc_root filt dncache coll0).newly.foldl newlyStep
    (bntSt1 offsets nc_root filt dncache coll0)

theorem build_nc_tree_unfold (offsets : List Nat) (nc_root : List Char)
    (filt : List Char → Bool) (dncache : List (List Char × Nat))
    (coll0 : List (List Char)) :
    build_nc_tree offsets nc_root filt dncache coll0
      = if (bntInfo0 offsets filt dncache).isEmpty
        then (none, coll0)
        else (some (buildNode (bntSt2 offsets nc_root filt dncache coll0).cmap
            (bntSt2 offsets nc_root filt dncache coll0).info
            (maxLenL ((bntSt2 offsets nc_root filt dncache coll0).info.map Prod.fst) + 1)
            (minByLen ((bntSt2 offsets nc_root filt dncache coll0).info.map Prod.fst))),
          (bntSt2 offsets nc_root filt dncache coll0).coll) := rfl

theorem keys_dmInsert (m : List (List Char × NInfo)) (k : List Char) (v : NInfo) :
    (dmInsert m k v).map Prod.fst
      = if k ∈ m.map Prod.fst then m.map Prod.fst else m.map Prod.fst ++ [k] := by
  induction m with
  | nil => simp [dmInsert]
  | cons e rest ih =>
    by_cases he : e.1 = k
    · rw [show dmInsert (e :: rest) k v = (e.1, v) :: rest from by
        rw [dmInsert, if_pos he]]
      simp [he]
    · rw [show dmInsert (e :: rest) k v = e :: dmInsert rest k v from by
        rw [dmInsert, if_neg he]]
      simp only [List.map_cons, ih]
      by_cases hk : k ∈ rest.map Prod.fst
      · rw [if_pos hk, if_pos (List.mem_cons_of_mem _ hk)]
      · have hnot : ¬ (k ∈ e.1 :: rest.map Prod.fst) := by
          intro h
          rcases List.mem_cons.mp h with h | h
          · exact he h.symm
          · exact hk h
        rw [if_neg hk, if_neg hnot, List.cons_append]

theorem info0_keys_mono (offsets : List Nat) (filt : List Char → Bool) :
    ∀ (l : List (List Char × Nat)) (m : List (List Char × NInfo)) (j : List Char),
    j ∈ m.map Prod.fst →
    j ∈ (l.foldl (fun m e => if filt e.1 then dmInsert m e.1
        ⟨(e.2 : Int), offsets.getD e.2 0⟩ else m) m).map Prod.fst := by
  intro l
  induction l with
  | nil => intro m j h; exact h
  | cons e l ih =>
    intro m j h
    rw [List.foldl_cons]
    apply ih
    by_cases hf : filt e.1 = true
    · rw [if_pos hf, keys_dmInsert]
      by_cases hm : e.1 ∈ m.map Prod.fst
      · rw [if_pos hm]; exact h
      · rw [if_neg hm]; exact List.mem_append_left _ h
    · rw [if_neg hf]; exact h

theorem info0_keys_complete (offsets : List Nat) (filt : List Char → Bool) :
    ∀ (l : List (List Char × Nat)) (m : List (List Char × NInfo))
      (k : List Char) (v : Nat), (k, v) ∈ l → filt k = true →
    k ∈ (l.foldl (fun m e => if filt e.1 then dmInsert m e.1
        ⟨(e.2 : Int), offsets.getD e.2 0⟩ else m) m).map Prod.fst := by
  intro l
  induction l with
  | nil => intro m k v h; exact absurd h (List.not_mem_nil _)
  | cons e l ih =>
    intro m k v h hf
    rw [List.foldl_cons]
    rcases List.mem_cons.mp h with h | h
    · have he1 : e.1 = k := by rw [← h]
      apply info0_keys_mono
      rw [if_pos (by rw [he1]; exact hf), keys_dmInsert]
      by_cases hm : e.1 ∈ m.map Prod.fst
      · rw [if_pos hm]
        exact he1 ▸ hm
      · rw [if_neg hm]
        exact List.mem_append_right _ (List.mem_singleton.mpr he1.symm)
    · exact ih _ k v h hf

theorem info0_keys_sound (offsets : List Nat) (filt : List Char → Bool) :
    ∀ (l : List (List Char × Nat)) (m : List (List Char × NInfo)) (j : List Char),
    j ∈ (l.foldl (fun m e => if filt e.1 then dmInsert m e.1
        ⟨(e.2 : Int), offsets.getD e.2 0⟩ else m) m).map Prod.fst →
    j ∈ m.map Prod.fst ∨ ∃ v, (j, v) ∈ l ∧ filt j = true := by
  intro l
  induction l with
  | nil => intro m j h; exact Or.inl h
  | cons e l ih =>
    intro m j h
    rw [List.foldl_cons] at h
    rcases ih _ j h with h2 | ⟨v, hv, hfj⟩
    · by_cases hf : filt e.1 = true
      · rw [if_pos hf, keys_dmInsert] at h2
        by_cases hm : e.1 ∈ m.map Prod.fst
        · rw [if_pos hm] at h2; exact Or.inl h2
        · rw [if_neg hm] at h2
          rcases List.mem_append.mp h2 with h3 | h3
          · exact Or.inl h3
          · have hj : j = e.1 := List.mem_singleton.mp h3
            exact Or.inr ⟨e.2, by rw [hj]; exact List.mem_cons_self _ _,
              by rw [hj]; exact hf⟩
      · rw [if_neg hf] at h2; exact Or.inl h2
    · exact Or.inr ⟨v, List.mem_cons_of_mem _ hv, hfj⟩

theorem bntInfo0_keys_complete (offsets : List Nat) (filt : List Char → Bool)
    (dncache : List (List Char × Nat)) (k : List Char) (v : Nat)
    (h : (k, v) ∈ dncache) (hf : filt k = true) :
    k ∈ (bntInfo0 offsets filt dncache).map Prod.fst :=
  info0_keys_complete offsets filt dncache [] k v h hf

theorem bntInfo0_keys_sound (offsets : List Nat) (filt : List Char → Bool)
    (dncache : List (List Char × Nat)) (j : List Char)
    (h : j ∈ (bntInfo0 offsets filt dncache).map Prod.fst) :
    ∃ v, (j, v) ∈ dncache ∧ filt j = true := by
  rcases info0_keys_sound offsets filt dncache [] j h with h2 | h2
  · exact absurd h2 (by simp)
  · exact h2

theorem minGo_eq (x : List Char) :
    ∀ (ys : List (List Char)) (acc : List Char), x ∈ acc :: ys →
    (∀ y ∈ acc :: ys, y ≠ x → x.length < y.length) →
    minGo acc ys = x := by
  intro ys
  induction ys with
  | nil =>
    intro acc hx _
    rcases List.mem_cons.mp hx with h | h
    · exact h.symm
    · exact absurd h (List.not_mem_nil x)
  | cons y ys ih =>
    intro acc hx hmin
    rw [show minGo acc (y :: ys)
        = if y.length < acc.length then minGo y ys else minGo acc ys from rfl]
    by_cases hc : y.length < acc.length
    · rw [if_pos hc]
      apply ih y
      · rcases List.mem_cons.mp hx with h | h
        · by_cases hyx : y = x
          · rw [hyx]; exact List.mem_cons_self _ _
          · have h2 := hmin y (List.mem_cons_of_mem _ (List.mem_cons_self _ _)) hyx
            rw [← h] at hc
            exfalso
            omega
        · exact h
      · intro z hz hzx
        exact hmin z (List.mem_cons_of_mem _ hz) hzx
    · rw [if_neg hc]
      apply ih acc
      · rcases List.mem_cons.mp hx with h | h
        · rw [h]; exact List.mem_cons_self _ _
        · rcases List.mem_cons.mp h with h2 | h2
          · by_cases hax : acc = x
            · exact List.mem_cons.mpr (Or.inl hax.symm)
            · have h3 := hmin acc (List.mem_cons_self _ _) hax
              rw [h2] at h3
              exfalso
              omega
          · exact List.mem_cons.mpr (Or.inr h2)
      · intro z hz hzx
        rcases List.mem_cons.mp hz with h | h
        · exact hmin z (by rw [h]; exact List.mem_cons_self _ _) hzx
        · exact hmin z (List.mem_cons_of_mem _ (List.mem_cons_of_mem _ h)) hzx

theorem minByLen_eq {x : List Char} {l : List (List Char)} (hx : x ∈ l)
    (hmin : ∀ y ∈ l, y ≠ x → x.length < y.length) : minByLen l = x := by
  cases l with
  | nil => exact absurd hx (List.not_mem_nil x)
  | cons a as => exact minGo_eq x as a hx hmin

theorem maxLenL_ge : ∀ (l : List (List Char)) (k : List Char), k ∈ l →
    k.length ≤ maxLenL l := by
  intro l
  induction l with
  | nil => intro k h; exact absurd h (List.not_mem_nil k)
  | cons x xs ih =>
    intro k h
    rw [maxLenL]
    rcases List.mem_cons.mp h with h | h
    · rw [h]; exact le_max_left _ _
    · exact le_trans (ih k h) (le_max_right _ _)

theorem treeDNsL_toTNodes (l : List TNode) :
    treeDNsL (toTNodes l) = (l.map treeDNs).flatten := by
  induction l with
  | nil => rfl
  | cons t ts ih =>
    rw [show treeDNsL (toTNodes (t :: ts))
        = treeDNs t ++ treeDNsL (toTNodes ts) from rfl, ih,
      List.map_cons, List.flatten_cons]

theorem treeEdgeList_toTNodes (d : List Char) (l : List TNode) :
    treeEdgeList d (toTNodes l) = l.map (fun n => (d, n.dn)) := by
  induction l with
  | nil => rfl
  | cons t ts ih =>
    rw [show treeEdgeList d (toTNodes (t :: ts))
        = (d, t.dn) :: treeEdgeList d (toTNodes ts) from rfl, ih, List.map_cons]

theorem treeParentEdgesL_toTNodes (l : List TNode) :
    treeParentEdgesL (toTNodes l) = (l.map treeParentEdges).flatten := by
  induction l with
  | nil => rfl
  | cons t ts ih =>
    rw [show treeParentEdgesL (toTNodes (t :: ts))
        = treeParentEdges t ++ treeParentEdgesL (toTNodes ts) from rfl, ih,
      List.map_cons, List.flatten_cons]

theorem buildNode_dn (cm : List (List Char × List (List Char)))
    (info : List (List Char × NInfo)) (fuel : Nat) (dn : List Char) :
    (buildNode cm info fuel dn).dn = dn := by
  cases fuel <;> rfl

/-- Reachability from `q` to `d` in exactly `k` steps along `children_map`
edges. -/
inductive RF (cm : List (List Char × List (List Char))) :
    List Char → List Char → Nat → Prop
  | refl (q : List Char) : RF cm q q 0
  | head (q c d : List Char) (k : Nat) (hc : c ∈ cmGet cm q)
      (h : RF cm c d k) : RF cm q d (k + 1)

theorem RF.snoc (cm : List (List Char × List (List Char))) :
    ∀ {q d : List Char} {k : Nat}, RF cm q d k →
    ∀ {e : List Char}, e ∈ cmGet cm d → RF cm q e (k + 1) := by
  intro q d k h
  induction h with
  | refl q =>
    intro e he
    exact RF.head q e e 0 he (RF.refl e)
  | head q c d k hc h ih =>
    intro e he
    exact RF.head q c e (k + 1) hc (ih he)

theorem reach_treeDNs (cm : List (List Char × List (List Char)))
    (info : List (List Char × NInfo)) :
    ∀ (fuel : Nat) (q d : List Char) (k : Nat), RF cm q d k → k ≤ fuel →
    d ∈ treeDNs (buildNode cm info fuel q) := by
  intro fuel
  induction fuel with
  | zero =>
    intro q d k h hk
    cases h with
    | refl =>
      rw [show treeDNs (buildNode cm info 0 q) = [q] from rfl]
      exact List.mem_singleton_self q
    | head _ c' _ k' hc' h' => omega
  | succ fuel ih =>
    intro q d k h hk
    rw [show treeDNs (buildNode cm info (fuel + 1) q)
        = q :: treeDNsL (toTNodes ((cmGet cm q).map (buildNode cm info fuel))) from rfl,
      treeDNsL_toTNodes]
    cases h with
    | refl => exact List.mem_cons_self _ _
    | head _ c' _ k' hc' h' =>
      refine List.mem_cons_of_mem _ (List.mem_flatten.mpr
        ⟨treeDNs (buildNode cm info fuel c'), ?_, ih c' d k' h' (by omega)⟩)
      rw [List.map_map]
      exact List.mem_map.mpr ⟨c', hc', rfl⟩

theorem treeDNs_sound (cm : List (List Char × List (List Char)))
    (info : List (List Char × NInfo)) :
    ∀ (fuel : Nat) (q d : List Char), d ∈ treeDNs (buildNode cm info fuel q) →
    d = q ∨ ∃ p, d ∈ cmGet cm p := by
  intro fuel
  induction fuel with
  | zero =>
    intro q d h
    rw [show treeDNs (buildNode cm info 0 q) = [q] from rfl] at h
    exact Or.inl (List.mem_singleton.mp h)
  | succ fuel ih =>
    intro q d h
    rw [show treeDNs (buildNode cm info (fuel + 1) q)
        = q :: treeDNsL (toTNodes ((cmGet cm q).map (buildNode cm info fuel))) from rfl,
      treeDNsL_toTNodes] at h
    rcases List.mem_cons.mp h with h | h
    · exact Or.inl h
    · obtain ⟨ds, hds, hd⟩ := List.mem_flatten.mp h
      rw [List.map_map] at hds
      obtain ⟨c, hc, hceq⟩ := List.mem_map.mp hds
      rw [← hceq] at hd
      rcases ih c d hd with h2 | h2
      · exact Or.inr ⟨q, by rw [h2]; exact hc⟩
      · exact Or.inr h2

theorem reach_treeEdges (cm : List (List Char × List (List Char)))
    (info : List (List Char × NInfo)) :
    ∀ (fuel : Nat) (q d : List Char) (k : Nat) (c : List Char),
    RF cm q d k → k + 1 ≤ fuel → c ∈ cmGet cm d →
    (d, c) ∈ treeParentEdges (buildNode cm info fuel q) := by
  intro fuel
  induction fuel with
  | zero => intro q d k c h hk hc; omega
  | succ fuel ih =>
    intro q d k c h hk hc
    rw [show treeParentEdges (buildNode cm info (fuel + 1) q)
        = treeEdgeList q (toTNodes ((cmGet cm q).map (buildNode cm info fuel)))
          ++ treeParentEdgesL (toTNodes ((cmGet cm q).map (buildNode cm info fuel)))
        from rfl]
    cases h with
    | refl =>
      refine List.mem_append_left _ ?_
      rw [treeEdgeList_toTNodes, List.map_map]
      refine List.mem_map.mpr ⟨c, hc, ?_⟩
      show (q, (buildNode cm info fuel c).dn) = (q, c)
      rw [buildNode_dn]
    | head _ c' _ k' hc' h' =>
      refine List.mem_append_right _ ?_
      rw [treeParentEdgesL_toTNodes]
      refine List.mem_flatten.mpr ⟨treeParentEdges (buildNode cm info fuel c'), ?_,
        ih c' d k' c h' (by omega) hc⟩
      rw [List.map_map]
      exact List.mem_map.mpr ⟨c', hc', rfl⟩

theorem keys_RF (cm : List (List Char × List (List Char))) (root : List Char)
    (Ks : List (List Char))
    (hedge : ∀ k ∈ Ks, k ≠ root → ∃ p, get_parent_dn k = some p ∧
      k ∈ cmGet cm p ∧ p ∈ Ks) :
    ∀ (n : Nat) (k : List Char), k.length ≤ n → k ∈ Ks →
    ∃ j, j ≤ k.length ∧ RF cm root k j := by
  intro n
  induction n with
  | zero =>
    intro k hl hk
    by_cases hr : k = root
    · rw [hr]; exact ⟨0, Nat.zero_le _, RF.refl root⟩
    · obtain ⟨p, hp, _, _⟩ := hedge k hk hr
      have := (gpd_length hp).1
      omega
  | succ n ih =>
    intro k hl hk
    by_cases hr : k = root
    · rw [hr]; exact ⟨0, Nat.zero_le _, RF.refl root⟩
    · obtain ⟨p, hp, hcm, hpk⟩ := hedge k hk hr
      have hlt := (gpd_length hp).1
      obtain ⟨j, hj, hrf⟩ := ih p (by omega) hpk
      exact ⟨j + 1, by omega, RF.snoc cm hrf hcm⟩

theorem ancestors_in_keys (cm : List (List Char × List (List Char)))
    (root : List Char) (Ks : List (List Char))
    (hedge : ∀ k ∈ Ks, k ≠ root → ∃ p, get_parent_dn k = some p ∧
      k ∈ cmGet cm p ∧ p ∈ Ks) :
    ∀ (n : Nat) (k : List Char), k.length ≤ n → k ∈ Ks →
    ∀ a ∈ ancestorsTo root k, a ∈ Ks := by
  intro n
  induction n with
  | zero =>
    intro k hl hk a ha
    by_cases hr : k = root
    · rw [ancestorsTo_unfold, if_pos hr] at ha
      exact absurd ha (List.not_mem_nil a)
    · obtain ⟨p, hp, _, _⟩ := hedge k hk hr
      have := (gpd_length hp).1
      omega
  | succ n ih =>
    intro k hl hk a ha
    by_cases hr : k = root
    · rw [ancestorsTo_unfold, if_pos hr] at ha
      exact absurd ha (List.not_mem_nil a)
    · obtain ⟨p, hp, _, hpk⟩ := hedge k hk hr
      have hred : ancestorsTo root k = p :: ancestorsTo root p := by
        rw [ancestorsTo_unfold, if_neg hr, hp]
      rw [hred] at ha
      rcases List.mem_cons.mp ha with h | h
      · rw [h]; exact hpk
      · have hlt := (gpd_length hp).1
        exact ih p (by omega) hpk a h

/-- C1 amended theorem.  `build_nc_tree`'s completeness holds under the
restriction refuted away by the counterexample: if the NC root itself is
cached and predicate-matching, and every predicate-matching cached DN's
unescaped-comma parent chain reaches the NC root through predicate-matching
ancestors, then the call returns a tree rooted at the NC root in which every
predicate-matching cached DN appears, every ancestor of such a DN up to the
root appears (real or synthetic), and every non-root tree node has its
parent present with the parent-to-child edge recorded — no orphaned node. -/
theorem c1_amended (offsets : List Nat) (root : List Char)
    (filt : List Char → Bool) (dncache : List (List Char × Nat))
    (coll0 : List (List Char))
    (hrc : ∃ i, (root, i) ∈ dncache) (hrf : filt root = true)
    (hchain : ∀ e ∈ dncache, filt e.1 = true → chainOK filt root e.1 = true) :
    ∃ t coll1, build_nc_tree offsets root filt dncache coll0 = (some t, coll1) ∧
      t.dn = root ∧
      (∀ e ∈ dncache, filt e.1 = true → e.1 ∈ treeDNs t) ∧
      (∀ e ∈ dncache, filt e.1 = true →
        ∀ a ∈ ancestorsTo root e.1, a ∈ treeDNs t) ∧
      (∀ d ∈ treeDNs t, d ≠ root → ∃ p, get_parent_dn d = some p ∧
        p ∈ treeDNs t ∧ (p, d) ∈ treeParentEdges t) := by
  obtain ⟨rIdx, hrc⟩ := hrc
  have hrk : root ∈ (bntInfo0 offsets filt dncache).map Prod.fst :=
    bntInfo0_keys_complete offsets filt dncache root rIdx hrc hrf
  have hsound : ∀ k ∈ (bntInfo0 offsets filt dncache).map Prod.fst,
      filt k = true ∧ chainOK filt root k = true := by
    intro k hk
    rcases bntInfo0_keys_sound offsets filt dncache k hk with ⟨v, hv, hfk⟩
    exact ⟨hfk, hchain (k, v) hv hfk⟩
  have hinv0 : BInvP filt root ((bntInfo0 offsets filt dncache).map Prod.fst)
      none (bntSt0 offsets filt dncache coll0) := by
    refine ⟨hsound, hrk, ?_, ?_, ?_⟩
    · intro s hs
      exact absurd hs (List.not_mem_nil s)
    · intro q c hc
      exact absurd hc (List.not_mem_nil c)
    · exact (List.append_nil _).symm
  obtain ⟨hinv1, ⟨a1, ha1⟩, hcm1, hedge1⟩ :=
    mainLoop_ok filt root ((bntInfo0 offsets filt dncache).map Prod.fst)
      ((bntInfo0 offsets filt dncache).map Prod.fst)
      (bntSt0 offsets filt dncache coll0) hinv0 (fun d hd => hd)
  have hs1 : ((bntInfo0 offsets filt dncache).map Prod.fst).foldl
      (processDN filt root) (bntSt0 offsets filt dncache coll0)
      = bntSt1 offsets root filt dncache coll0 := rfl
  rw [hs1] at hinv1 ha1 hcm1 hedge1
  have hmem2 : ∀ s ∈ (bntSt1 offsets root filt dncache coll0).newly,
      s ∈ keys (bntSt1 offsets root filt dncache coll0) ∧
      ∃ p, get_parent_dn s = some p ∧
        p ∈ keys (bntSt1 offsets root filt dncache coll0) := by
    intro s hs
    obtain ⟨hs1, p, hp, hp2⟩ := hinv1.2.2.1 s hs
    refine ⟨?_, p, hp, ?_⟩
    · rw [hinv1.2.2.2.2]
      exact List.mem_append_right _ hs
    · rcases hp2 with h | h
      · exact h
      · exact Option.noConfusion h
  obtain ⟨hi2, hn2, hinv2, hcm2, hedge2⟩ :=
    newlyLoop_ok filt root ((bntInfo0 offsets filt dncache).map Prod.fst)
      (bntSt1 offsets root filt dncache coll0).newly
      (bntSt1 offsets root filt dncache coll0) hinv1 hmem2
  have hs2 : (bntSt1 offsets root filt dncache coll0).newly.foldl newlyStep
      (bntSt1 offsets root filt dncache coll0)
      = bntSt2 offsets root filt dncache coll0 := rfl
  rw [hs2] at hi2 hn2 hinv2 hcm2 hedge2
  have hk21 : keys (bntSt2 offsets root filt dncache coll0)
      = keys (bntSt1 offsets root filt dncache coll0) := by
    rw [keys, keys, hi2]
  have hedge : ∀ k ∈ keys (bntSt2 offsets root filt dncache coll0), k ≠ root →
      ∃ p, get_parent_dn k = some p ∧
        k ∈ cmGet (bntSt2 offsets root filt dncache coll0).cmap p ∧
        p ∈ keys (bntSt2 offsets root filt dncache coll0) := by
    intro k hk hkr
    have hk1 : k ∈ keys (bntSt1 offsets root filt dncache coll0) := hk21 ▸ hk
    rw [hinv1.2.2.2.2] at hk1
    rcases List.mem_append.mp hk1 with h | h
    · obtain ⟨p, hp, hin⟩ := hedge1 k h hkr
      have hin2 := hcm2 p k hin
      obtain ⟨_, _, hpk⟩ := hinv2.2.2.2.1 p k hin2
      exact ⟨p, hp, hin2, hpk⟩
    · obtain ⟨p, hp, hin⟩ := hedge2 k h
      obtain ⟨_, _, hpk⟩ := hinv2.2.2.2.1 p k hin
      exact ⟨p, hp, hin, hpk⟩
  have hrmin : minByLen
      ((bntSt2 offsets root filt dncache coll0).info.map Prod.fst) = root := by
    apply minByLen_eq
    · exact hinv2.2.1
    · intro y hy hyr
      exact (chainOK_length y.length y le_rfl (hinv2.1 y hy).2).2 hyr
  have hkeytree : ∀ k ∈ keys (bntSt2 offsets root filt dncache coll0),
      k ∈ treeDNs (buildNode (bntSt2 offsets root filt dncache coll0).cmap
        (bntSt2 offsets root filt dncache coll0).info
        (maxLenL ((bntSt2 offsets root filt dncache coll0).info.map Prod.fst) + 1)
        root) := by
    intro k hk
    obtain ⟨j, hj, hrf2⟩ := keys_RF (bntSt2 offsets root filt dncache coll0).cmap
      root (keys (bntSt2 offsets root filt dncache coll0)) hedge k.length k
      le_rfl hk
    refine reach_treeDNs _ _ _ root k j hrf2 ?_
    have := maxLenL_ge
      ((bntSt2 offsets root filt dncache coll0).info.map Prod.fst) k hk
    omega
  have hcachekey : ∀ e ∈ dncache, filt e.1 = true →
      e.1 ∈ keys (bntSt2 offsets root filt dncache coll0) := by
    intro e he hf
    have h0 : e.1 ∈ (bntInfo0 offsets filt dncache).map Prod.fst :=
      bntInfo0_keys_complete offsets filt dncache e.1 e.2 he hf
    have h1 : e.1 ∈ keys (bntSt1 offsets root filt dncache coll0) :=
      keys_mono ha1 h0
    rw [hk21]
    exact h1
  refine ⟨buildNode (bntSt2 offsets root filt dncache coll0).cmap
      (bntSt2 offsets root filt dncache coll0).info
      (maxLenL ((bntSt2 offsets root filt dncache coll0).info.map Prod.fst) + 1)
      root,
    (bntSt2 offsets root filt dncache coll0).coll, ?_, ?_, ?_, ?_, ?_⟩
  · rw [build_nc_tree_unfold]
    have hne : ¬ ((bntInfo0 offsets filt dncache).isEmpty = true) := by
      intro hh
      cases hl : bntInfo0 offsets filt dncache with
      | nil =>
        rw [hl] at hrk
        exact absurd hrk (by simp)
      | cons a l =>
        rw [hl] at hh
        exact Bool.noConfusion hh
    rw [if_neg hne, hrmin]
  · exact buildNode_dn _ _ _ _
  · intro e he hf
    exact hkeytree e.1 (hcachekey e he hf)
  · intro e he hf a ha
    refine hkeytree a ?_
    exact ancestors_in_keys (bntSt2 offsets root filt dncache coll0).cmap root
      (keys (bntSt2 offsets root filt dncache coll0)) hedge e.1.length e.1
      le_rfl (hcachekey e he hf) a ha
  · intro d hd hdr
    rcases treeDNs_sound _ _ _ root d hd with h | ⟨p0, hp0⟩
    · exact absurd h hdr
    · obtain ⟨hgp, hdk, hpk⟩ := hinv2.2.2.2.1 p0 d hp0
      refine ⟨p0, hgp, hkeytree p0 hpk, ?_⟩
      obtain ⟨j, hj, hrf2⟩ := keys_RF (bntSt2 offsets root filt dncache coll0).cmap
        root (keys (bntSt2 offsets root filt dncache coll0)) hedge p0.length p0
        le_rfl hpk
      refine reach_treeEdges _ _ _ root p0 j d hrf2 ?_ hp0
      have h1 := maxLenL_ge
        ((bntSt2 offsets root filt dncache coll0).info.map Prod.fst) d hdk
      have h2 := (gpd_length hgp).1
      omega

/-- Witness for the amended C1 theorem: a two-entry cache whose non-root DN
is a direct child of the root. -/
theorem c1_amended_witness :
    ∃ t coll1,
      build_nc_tree [16, 24] ("DC=a".toList) (fun _ => true)
          [(("DC=a".toList), 0), (("CN=x,DC=a".toList), 1)] [] = (some t, coll1) ∧
      t.dn = "DC=a".toList ∧
      (∀ e ∈ [(("DC=a".toList), 0), (("CN=x,DC=a".toList), 1)],
        (fun (_ : List Char) => true) e.1 = true → e.1 ∈ treeDNs t) ∧
      (∀ e ∈ [(("DC=a".toList), 0), (("CN=x,DC=a".toList), 1)],
        (fun (_ : List Char) => true) e.1 = true →
        ∀ a ∈ ancestorsTo ("DC=a".toList) e.1, a ∈ treeDNs t) ∧
      (∀ d ∈ treeDNs t, d ≠ "DC=a".toList → ∃ p, get_parent_dn d = some p ∧
        p ∈ treeDNs t ∧ (p, d) ∈ treeParentEdges t) :=
  c1_amended [16, 24] ("DC=a".toList) (fun _ => true)
    [(("DC=a".toList), 0), (("CN=x,DC=a".toList), 1)] []
    ⟨0, by decide⟩ rfl (by decide)

/-! ## enrich.py: treeview existence check, output naming, and the
enrichment pipeline (enrich.py lines 15-336) -/

/-- `TREEVIEW_MAGIC` — the first 8 bytes of a treeview header. -/
def tvMagic : List Nat := [0xFE, 0xFF, 0xFF, 0xFF, 0xFF, 0xFF, 0xFF, 0xFF]

/-- `check_treeview_exists` from enrich.py over the raw snapshot bytes.
Modelled from the spec: the snapshot header parser (`parser/classes.py`) is
not among the staged sources, so `snap.header.treeviewOffset` is taken per
the spec's file-format section — and consistently with `enrich_snapshot`,
which packs the field back with `struct.pack_into("<Q", data, 0x436, ...)` —
as the little-endian `uint64` at byte offset 0x436.  The remaining steps
mirror the source: zero/all-ones offset, minimum size `t + 64 + 100`, the
8-byte magic, the 56-byte header read, `num_NCs ∈ [1, 10]` (first of the 14
words), and the final size bound from the third section offset (fifth
word, bytes `t+24..t+28`). -/
def check_treeview_exists (bs : List Nat) : Bool × Nat :=
  let t := readLE64 bs 0x436
  if t = 0 ∨ t = 0xFFFFFFFFFFFFFFFF then (false, 0)
  else if bs.length < t + 64 + 100 then (false, t)
  else if ¬ ((bs.drop t).take 8 = tvMagic) then (false, t)
  else if ((bs.drop (t + 8)).take 56).length < 56 then (false, t)
  else if readLE32 bs (t + 8) < 1 ∨ 10 < readLE32 bs (t + 8) then (false, t)
  else if bs.length < t + 64 + readLE32 bs (t + 24) + 100 then (false, t)
  else (true, t)

/-- The last index of `c` in a string (`str.rfind` when present). -/
def lastIdxOf (c : Char) : List Char → Option Nat
  | [] => none
  | x :: xs =>
    match lastIdxOf c xs with
    | some i => some (i + 1)
    | none => if x = c then some 0 else none

/-- `get_output_filename` from enrich.py on the basename: `pathlib`'s
`suffix` is nonempty exactly when the last dot sits strictly inside the
name (`0 < i < len - 1`); then `.enriched` is inserted before it, else
appended. -/
def get_output_filename (nm : List Char) : List Char :=
  match lastIdxOf '.' nm with
  | some i =>
    if 0 < i ∧ i + 1 < nm.length then
      nm.take i ++ ".enriched".toList ++ nm.drop i
    else nm ++ ".enriched".toList
  | none => nm ++ ".enriched".toList

/-- `dn.endswith(suffix)`. -/
def endsWithL (dn suf : List Char) : Bool :=
  decide (dn.drop (dn.length - suf.length) = suf)

/-- Lookup in the `synthetic_objects` dict. -/
def synLookup (m : List (List Char × SynInfo)) (k : List Char) : Option SynInfo :=
  match m with
  | [] => none
  | e :: rest => if e.1 = k then some e.2 else synLookup rest k

/-! `update_synthetics`: give every synthetic node (negative temp index)
its real object index and byte offset, recursing through all children. -/
mutual
def updateSynT (so : List (List Char × SynInfo)) : TNode → TNode
  | .mk d i o cs =>
    if i < 0 then
      match synLookup so d with
      | some s => .mk d (s.obj_idx : Int) s.obj_offset (updateSynL so cs)
      | none => .mk d i o (updateSynL so cs)
    else .mk d i o (updateSynL so cs)
def updateSynL (so : List (List Char × SynInfo)) : TNodes → TNodes
  | .nil => .nil
  | .cons t ts => .cons (updateSynT so t) (updateSynL so ts)
end

/-- `encode_section` over each NC tree in order, stopping at the first
failure (an uncaught exception in the source). -/
def encodeAll : List TNode → Except String (List (List Nat))
  | [] => .ok []
  | t :: ts =>
    match encode_section t with
    | .error e => .error e
    | .ok s =>
      match encodeAll ts with
      | .error e => .error e
      | .ok rest => .ok (s :: rest)

/-- The section offsets of the treeview header: running byte offsets
relative to the treeview start, beginning right after the header. -/
def secOffsets : List (List Nat) → Nat → List Nat
  | [], _ => []
  | s :: rest, cur => cur :: secOffsets rest (cur + s.length)

/-- `TreeviewHeader.dumps()` (treeview/structure.py): `magic` (uint64
`0xFFFFFFFFFFFFFFFE`), `num_NCs`, `reserved = 0`, then one uint32 section
offset per NC, the header being `16 + num_NCs * 4` bytes. -/
def tvHeader (sections : List (List Nat)) : List Nat :=
  le64 0xFFFFFFFFFFFFFFFE ++ le32 sections.length ++ le32 0
    ++ ((secOffsets sections (16 + sections.length * 4)).map le32).flatten

/-- The `'win'` signature bytes. -/
def winBytes : List Nat := [0x77, 0x69, 0x6E]

/-- The win-signature fix: `if original_data[:3] != b'win': original_data[0:3] = b'win'`. -/
def mkFixed (bs : List Nat) : List Nat :=
  if bs.take 3 = winBytes then bs else winBytes ++ bs.drop 3

/-- Why an enrichment run stops without writing: the idempotence guard, a
missing domain root, a missing required NC tree, or an uncaught exception. -/
inductive EStop where
  | alreadyEnriched
  | noDomainRoot
  | failedTrees
  | fatal
deriving DecidableEq

/-- Everything a successful run writes, plus the bookkeeping the claims
speak about. -/
structure EPlan where
  tvoff : Nat
  synth : List Nat
  header : List Nat
  sections : List (List Nat)
  patched : List Nat
  outName : List Char
  outBytes : List Nat
deriving DecidableEq

/-- The snapshot state `enrich_snapshot` starts from: the file, the
parser-derived object offsets, and the preprocessed DN cache, root domain
and property dictionary. -/
structure Ades where
  fileName : List Char
  fileBytes : List Nat
  objectOffsets : List Nat
  dncache : List (List Char × Nat)
  rootdomain : List Char
  propertyDict : List (List Char × Nat)

/-- The final assembly of `enrich_snapshot`: win-signature fix, the
`treeviewOffset` patch at 0x436 (only when synthetic data exists —
`struct.pack_into` raises on a buffer shorter than 0x43E), and the output
bytes `original[:tvoff] ++ synthetics ++ header ++ sections ++ remainder`. -/
def mkPlan (nm : List Char) (bs : List Nat) (tvoff : Nat) (synData : List Nat)
    (sections : List (List Nat)) : Except EStop EPlan :=
  if synData = [] then
    Except.ok ⟨tvoff, synData, tvHeader sections, sections, mkFixed bs,
      get_output_filename nm,
      (mkFixed bs).take tvoff ++ synData ++ tvHeader sections ++ sections.flatten
        ++ (if tvoff + (synData.length + ((tvHeader sections).length
              + sections.flatten.length)) < (mkFixed bs).length
            then (mkFixed bs).drop (tvoff + (synData.length
              + ((tvHeader sections).length + sections.flatten.length)))
            else [])⟩
  else
    if (mkFixed bs).length < 0x43E then Except.error EStop.fatal
    else
      Except.ok ⟨tvoff, synData, tvHeader sections, sections,
        writeLE64 (mkFixed bs) 0x436 (tvoff + synData.length),
        get_output_filename nm,
        (writeLE64 (mkFixed bs) 0x436 (tvoff + synData.length)).take tvoff
          ++ synData ++ tvHeader sections ++ sections.flatten
          ++ (if tvoff + (synData.length + ((tvHeader sections).length
                + sections.flatten.length))
              < (writeLE64 (mkFixed bs) 0x436 (tvoff + synData.length)).length
              then (writeLE64 (mkFixed bs) 0x436 (tvoff + synData.length)).drop
                (tvoff + (synData.length + ((tvHeader sections).length
                  + sections.flatten.length)))
              else [])⟩

/-- The treeview offset the run uses: the header's value, or — when that is
zero — the end of the last object (`last offset + its uint32 size`); a
missing object table or a short read is an uncaught exception. -/
def eTvoff (ades : Ades) : Except EStop Nat :=
  if (check_treeview_exists ades.fileBytes).2 = 0 then
    match ades.objectOffsets.getLast? with
    | none => Except.error EStop.fatal
    | some lo =>
      if ades.fileBytes.length < lo + 4 then Except.error EStop.fatal
      else Except.ok (lo + readLE32 ades.fileBytes lo)
  else Except.ok (check_treeview_exists ades.fileBytes).2

/-- The tree-building, synthetic-creation, tree-update and encoding stages
of `enrich_snapshot`, producing the synthetic bytes and the encoded NC
sections.  The five NC roots, the `endswith` filters, the shared synthetic
collector, the `update_synthetics` pass (which crashes on a missing
required tree), the required-trees check and the per-section encoding all
mirror the source. -/
def eSections (ades : Ades) (tvoff : Nat) :
    Except EStop (List Nat × List (List Nat)) :=
  let droot := ades.rootdomain
  let croot := "CN=Configuration,".toList ++ droot
  let sroot := "CN=Schema,CN=Configuration,".toList ++ droot
  let dzroot := "DC=DomainDnsZones,".toList ++ droot
  let fzroot := "DC=ForestDnsZones,".toList ++ droot
  let hasDz := ades.dncache.any fun e => endsWithL e.1 dzroot
  let hasFz := ades.dncache.any fun e => endsWithL e.1 fzroot
  let r1 := build_nc_tree ades.objectOffsets droot
    (fun dn => endsWithL dn droot && !endsWithL dn croot && !endsWithL dn dzroot
      && !endsWithL dn fzroot) ades.dncache []
  let r2 := build_nc_tree ades.objectOffsets croot
    (fun dn => endsWithL dn croot && !endsWithL dn sroot) ades.dncache r1.2
  let r3 := build_nc_tree ades.objectOffsets sroot
    (fun dn => endsWithL dn sroot) ades.dncache r2.2
  let r4 := if hasDz then
      build_nc_tree ades.objectOffsets dzroot
        (fun dn => endsWithL dn dzroot) ades.dncache r3.2
    else (none, r3.2)
  let r5 := if hasFz then
      build_nc_tree ades.objectOffsets fzroot
        (fun dn => endsWithL dn fzroot) ades.dncache r4.2
    else (none, r4.2)
  let coll := r5.2
  match (if coll = [] then Except.ok ([], [])
      else create_synthetic_objects_data coll ades.propertyDict
        ades.objectOffsets.length tvoff) with
  | Except.error _ => Except.error EStop.fatal
  | Except.ok sd =>
    match (if coll = [] then Except.ok (r1.1, r2.1, r3.1, r4.1, r5.1)
        else
          match r1.1, r2.1, r3.1 with
          | some t1, some t2, some t3 =>
            Except.ok (some (updateSynT sd.1 t1), some (updateSynT sd.1 t2),
              some (updateSynT sd.1 t3), Option.map (updateSynT sd.1) r4.1,
              Option.map (updateSynT sd.1) r5.1)
          | _, _, _ => Except.error EStop.fatal) with
    | Except.error e => Except.error e
    | Except.ok ts =>
      match ts.1, ts.2.1, ts.2.2.1 with
      | some t1, some t2, some t3 =>
        match encodeAll ([t1, t2, t3]
            ++ (match ts.2.2.2.1 with | some t4 => [t4] | none => [])
            ++ (match ts.2.2.2.2 with | some t5 => [t5] | none => [])) with
        | Except.error _ => Except.error EStop.fatal
        | Except.ok sections => Except.ok (sd.2, sections)
      | _, _, _ => Except.error EStop.failedTrees

/-- `enrich_snapshot`: the idempotence guard, the treeview offset, the
domain-root check, the build/encode stages, then the final assembly. -/
def enrichPlan (ades : Ades) : Except EStop EPlan :=
  if (check_treeview_exists ades.fileBytes).1 then Except.error EStop.alreadyEnriched
  else
    match eTvoff ades with
    | Except.error e => Except.error e
    | Except.ok tvoff =>
      if ades.rootdomain = [] then Except.error EStop.noDomainRoot
      else
        match eSections ades tvoff with
        | Except.error e => Except.error e
        | Except.ok sd => mkPlan ades.fileName ades.fileBytes tvoff sd.1 sd.2

/-- The run's effect on a name-indexed file store: a successful run writes
exactly the output file; every stopped run writes nothing. -/
def enrichFS (ades : Ades) (fs : List Char → Option (List Nat)) :
    List Char → Option (List Nat) :=
  match enrichPlan ades with
  | Except.error _ => fs
  | Except.ok p => fun n => if n = p.outName then some p.outBytes else fs n

/-- Whether a run produced a plan. -/
def isOkE (x : Except EStop EPlan) : Bool :=
  match x with
  | Except.ok _ => true
  | Except.error _ => false

/-- Stage projections of a successful run, with vacuous defaults for
stopped runs (used to evaluate concrete runs in witnesses). -/
def planTvoff (ades : Ades) : Nat :=
  match enrichPlan ades with
  | Except.ok p => p.tvoff
  | Except.error _ => 0

def planSynth (ades : Ades) : List Nat :=
  match enrichPlan ades with
  | Except.ok p => p.synth
  | Except.error _ => [37]

def planOut (ades : Ades) : List Nat :=
  match enrichPlan ades with
  | Except.ok p => p.outBytes
  | Except.error _ => []

theorem lastIdxOf_lt (c : Char) :
    ∀ (l : List Char) (i : Nat), lastIdxOf c l = some i → i < l.length := by
  intro l
  induction l with
  | nil => intro i h; exact Option.noConfusion h
  | cons x xs ih =>
    intro i h
    rw [lastIdxOf] at h
    cases hx : lastIdxOf c xs with
    | some j =>
      rw [hx] at h
      have hj := ih j hx
      have : j + 1 = i := Option.some.inj h
      rw [List.length_cons]
      omega
    | none =>
      rw [hx] at h
      by_cases hc : x = c
      · rw [if_pos hc] at h
        have : 0 = i := Option.some.inj h
        rw [List.length_cons]
        omega
      · rw [if_neg hc] at h
        exact Option.noConfusion h

theorem get_output_filename_length (nm : List Char) :
    (get_output_filename nm).length = nm.length + 9 := by
  rw [get_output_filename]
  cases h : lastIdxOf '.' nm with
  | none =>
    show (nm ++ ".enriched".toList).length = nm.length + 9
    simp
  | some i =>
    have hi := lastIdxOf_lt '.' nm i h
    show (if 0 < i ∧ i + 1 < nm.length then
        nm.take i ++ ".enriched".toList ++ nm.drop i
      else nm ++ ".enriched".toList).length = nm.length + 9
    by_cases hc : 0 < i ∧ i + 1 < nm.length
    · rw [if_pos hc]
      simp only [List.length_append, List.length_take, List.length_drop]
      have : ".enriched".toList.length = 9 := rfl
      omega
    · rw [if_neg hc]
      simp

theorem get_output_filename_ne (nm : List Char) : get_output_filename nm ≠ nm := by
  intro h
  have := congrArg List.length h
  rw [get_output_filename_length] at this
  omega

theorem readLE64_append (a b : List Nat) (i : Nat) (h : i + 8 ≤ a.length) :
    readLE64 (a ++ b) i = readLE64 a i := by
  rw [readLE64, readLE64, List.drop_append_eq_append_drop,
    List.take_append_eq_append_take, List.length_drop,
    show 8 - (a.length - i) = 0 from by omega, List.take_zero, List.append_nil]

theorem readLE64_take (l : List Nat) (n i : Nat) (h : i + 8 ≤ n) :
    readLE64 (l.take n) i = readLE64 l i := by
  rw [readLE64, readLE64, List.drop_take, List.take_take,
    show min 8 (n - i) = 8 from by omega]

theorem mkFixed_length (bs : List Nat) (h : 3 ≤ bs.length) :
    (mkFixed bs).length = bs.length := by
  rw [mkFixed]
  by_cases hc : bs.take 3 = winBytes
  · rw [if_pos hc]
  · rw [if_neg hc]
    simp only [List.length_append, List.length_drop]
    have : winBytes.length = 3 := rfl
    omega

theorem mkFixed_drop (bs : List Nat) (n : Nat) (h : 3 ≤ n) :
    (mkFixed bs).drop n = bs.drop n := by
  rw [mkFixed]
  by_cases hc : bs.take 3 = winBytes
  · rw [if_pos hc]
  · rw [if_neg hc, List.drop_append_eq_append_drop,
      List.drop_eq_nil_of_le (show winBytes.length ≤ n from by
        rw [show winBytes.length = 3 from rfl]; omega),
      List.nil_append, List.drop_drop,
      show winBytes.length = 3 from rfl]
    congr 1
    omega

theorem readLE64_mkFixed (bs : List Nat) (i : Nat) (h : 3 ≤ i) :
    readLE64 (mkFixed bs) i = readLE64 bs i := by
  rw [readLE64, readLE64, mkFixed_drop bs i h]

theorem mkPlan_ok (nm : List Char) (bs : List Nat) (tvoff : Nat)
    (synData : List Nat) (sections : List (List Nat)) (p : EPlan)
    (h : mkPlan nm bs tvoff synData sections = Except.ok p) :
    p.tvoff = tvoff ∧ p.synth = synData ∧ p.header = tvHeader sections ∧
    p.sections = sections ∧ p.outName = get_output_filename nm ∧
    ((synData = [] ∧ p.patched = mkFixed bs) ∨
     (synData ≠ [] ∧ 0x43E ≤ (mkFixed bs).length ∧
      p.patched = writeLE64 (mkFixed bs) 0x436 (tvoff + synData.length))) ∧
    p.outBytes = p.patched.take tvoff ++ synData ++ p.header ++ sections.flatten
      ++ (if tvoff + (synData.length + (p.header.length + sections.flatten.length))
            < p.patched.length
          then p.patched.drop
            (tvoff + (synData.length + (p.header.length + sections.flatten.length)))
          else []) := by
  rw [mkPlan] at h
  by_cases hs : synData = []
  · rw [if_pos hs] at h
    have hp := Except.ok.inj h
    rw [← hp]
    exact ⟨rfl, rfl, rfl, rfl, rfl, Or.inl ⟨hs, rfl⟩, rfl⟩
  · rw [if_neg hs] at h
    by_cases hg : (mkFixed bs).length < 0x43E
    · rw [if_pos hg] at h
      exact Except.noConfusion h
    · rw [if_neg hg] at h
      have hp := Except.ok.inj h
      rw [← hp]
      exact ⟨rfl, rfl, rfl, rfl, rfl, Or.inr ⟨hs, by omega, rfl⟩, rfl⟩

theorem enrichPlan_ok (ades : Ades) (p : EPlan)
    (hok : enrichPlan ades = Except.ok p) :
    ∃ tvoff synData sections,
      mkPlan ades.fileName ades.fileBytes tvoff synData sections = Except.ok p := by
  rw [enrichPlan] at hok
  by_cases h1 : (check_treeview_exists ades.fileBytes).1 = true
  · rw [if_pos h1] at hok
    exact Except.noConfusion hok
  · rw [if_neg h1] at hok
    cases h2 : eTvoff ades with
    | error e =>
      simp only [h2] at hok
      exact Except.noConfusion hok
    | ok tvoff =>
      simp only [h2] at hok
      by_cases h3 : ades.rootdomain = []
      · rw [if_pos h3] at hok
        exact Except.noConfusion hok
      · rw [if_neg h3] at hok
        cases h4 : eSections ades tvoff with
        | error e =>
          simp only [h4] at hok
          exact Except.noConfusion hok
        | ok sd =>
          simp only [h4] at hok
          exact ⟨tvoff, sd.1, sd.2, hok⟩

theorem take_drop_seg3 {α : Type} (A B C D E : List α) (n k : Nat)
    (hA : A.length = n) (hB : B.length = k) :
    ((A ++ (B ++ (C ++ (D ++ E)))).drop (n + k)).take (C.length + D.length)
      = C ++ D := by
  have h1 : A ++ (B ++ (C ++ (D ++ E))) = (A ++ B) ++ ((C ++ D) ++ E) := by
    simp [List.append_assoc]
  rw [h1, List.drop_left' (by rw [List.length_append, hA, hB]),
    List.take_left' (by rw [List.length_append])]

theorem take_drop_seg4 {α : Type} (A C D E : List α) (n : Nat)
    (hA : A.length = n) :
    ((A ++ (C ++ (D ++ E))).drop n).take (C.length + D.length) = C ++ D := by
  have h1 : A ++ (C ++ (D ++ E)) = A ++ ((C ++ D) ++ E) := by
    simp [List.append_assoc]
  rw [h1, List.drop_left' hA, List.take_left' (by rw [List.length_append])]

/-- C10 theorem.  With the header field inside the preserved prefix
(`0x43E ≤ tvoff`) and the offset inside the file, a successful run's output
satisfies the claimed layout: with synthetics, the `treeviewOffset` field
reads as the original offset plus the synthetic byte length, the synthetic
records occupy exactly the bytes from the original offset up to the new
treeview header, and the freshly encoded treeview (header then sections)
begins at the rewritten offset; without synthetics the field keeps its
input value and the treeview begins at the original offset. -/
theorem c10_output_layout (ades : Ades) (p : EPlan)
    (hok : enrichPlan ades = Except.ok p)
    (hlo : 0x43E ≤ p.tvoff) (hhi : p.tvoff ≤ ades.fileBytes.length) :
    (p.synth ≠ [] →
      readLE64 p.outBytes 0x436 = (p.tvoff + p.synth.length) % 2 ^ 64 ∧
      (p.outBytes.drop p.tvoff).take p.synth.length = p.synth ∧
      (p.outBytes.drop (p.tvoff + p.synth.length)).take
          (p.header.length + p.sections.flatten.length)
        = p.header ++ p.sections.flatten) ∧
    (p.synth = [] →
      readLE64 p.outBytes 0x436 = readLE64 ades.fileBytes 0x436 ∧
      (p.outBytes.drop p.tvoff).take (p.header.length + p.sections.flatten.length)
        = p.header ++ p.sections.flatten) := by
  obtain ⟨tvoff, synData, sections, hmk⟩ := enrichPlan_ok ades p hok
  obtain ⟨htv, hsy, hhd, hsec, hnm, hpat, hout⟩ :=
    mkPlan_ok ades.fileName ades.fileBytes tvoff synData sections p hmk
  subst htv
  subst hsy
  subst hsec
  have hplen : p.patched.length = ades.fileBytes.length := by
    rcases hpat with ⟨hse, hpe⟩ | ⟨hse, hge, hpe⟩
    · rw [hpe, mkFixed_length _ (by omega)]
    · rw [hpe, writeLE64_length _ _ _ ?_, mkFixed_length _ (by omega)]
      omega
  have hAlen : (p.patched.take p.tvoff).length = p.tvoff :=
    take_length_of_le (by omega)
  have hfield : readLE64 p.outBytes 0x436 = readLE64 p.patched 0x436 := by
    rw [hout,
      readLE64_append _ _ _ (by simp only [List.length_append, hAlen]; omega),
      readLE64_append _ _ _ (by simp only [List.length_append, hAlen]; omega),
      readLE64_append _ _ _ (by simp only [List.length_append, hAlen]; omega),
      readLE64_append _ _ _ (by rw [hAlen]; omega),
      readLE64_take _ _ _ (by omega)]
  constructor
  · intro hne
    rcases hpat with ⟨hse, _⟩ | ⟨hse, hge, hpe⟩
    · exact absurd hse hne
    refine ⟨?_, ?_, ?_⟩
    · rw [hfield, hpe, readLE64_writeLE64 _ _ _ (by omega)]
    · rw [hout, List.append_assoc, List.append_assoc, List.append_assoc,
        List.drop_left' hAlen, List.take_left' rfl]
    · rw [hout, List.append_assoc, List.append_assoc, List.append_assoc]
      exact take_drop_seg3 _ _ _ _ _ _ _ hAlen rfl
  · intro he
    rcases hpat with ⟨hse, hpe⟩ | ⟨hse, _, _⟩
    swap
    · exact absurd he hse
    refine ⟨?_, ?_⟩
    · rw [hfield, hpe, readLE64_mkFixed _ _ (by omega)]
    · rw [hout, he]
      simp only [List.append_nil, List.nil_append, List.append_assoc]
      exact take_drop_seg4 _ _ _ _ _ hAlen

/-- C3 amended theorem.  The idempotence guard holds: a populated treeview
makes the run report success and write nothing.  The second half of the
claim holds only conditionally: a second run on a produced file makes no
changes provided that file itself passes `check_treeview_exists` (the
counterexample shows a successful run whose output does not). -/
theorem c3_amended (ades : Ades) (fs : List Char → Option (List Nat)) :
    ((check_treeview_exists ades.fileBytes).1 = true →
      enrichPlan ades = Except.error EStop.alreadyEnriched ∧
      enrichFS ades fs = fs) ∧
    (∀ (p : EPlan) (ades2 : Ades), enrichPlan ades = Except.ok p →
      ades2.fileBytes = p.outBytes →
      (check_treeview_exists p.outBytes).1 = true →
      enrichPlan ades2 = Except.error EStop.alreadyEnriched ∧
      enrichFS ades2 fs = fs) := by
  have key : ∀ (a : Ades), (check_treeview_exists a.fileBytes).1 = true →
      enrichPlan a = Except.error EStop.alreadyEnriched := by
    intro a h
    rw [enrichPlan, if_pos h]
  have keyFS : ∀ (a : Ades), enrichPlan a = Except.error EStop.alreadyEnriched →
      enrichFS a fs = fs := by
    intro a h
    rw [enrichFS, h]
  constructor
  · intro h
    exact ⟨key ades h, keyFS ades (key ades h)⟩
  · intro p ades2 _ hb hchk
    have h2 : (check_treeview_exists ades2.fileBytes).1 = true := by
      rw [hb]; exact hchk
    exact ⟨key ades2 h2, keyFS ades2 (key ades2 h2)⟩

set_option maxRecDepth 100000

/-- A snapshot whose header `treeviewOffset` is zero, with the three core
NC roots and one child each in the DN cache and no missing parents. -/
def adesC3 : Ades :=
  ⟨"snap.dat".toList, List.replicate 0x450 0, [0x440],
   [("DC=a".toList, 0), ("CN=u,DC=a".toList, 0),
    ("CN=Configuration,DC=a".toList, 0),
    ("CN=x,CN=Configuration,DC=a".toList, 0),
    ("CN=Schema,CN=Configuration,DC=a".toList, 0),
    ("CN=y,CN=Schema,CN=Configuration,DC=a".toList, 0)],
   "DC=a".toList, [("distinguishedName".toList, 5)]⟩

/-- C3 counterexample.  On a field-zero snapshot needing no synthetic
objects, enrichment succeeds, yet the produced file still carries treeview
offset 0 in its header (the field is only rewritten `if synthetic_data`),
so a second run's check reports "missing" and the second run does not stop
at the idempotence guard: the unconditional second half of the claim is
refuted. -/
theorem c3_counterexample :
    ∃ p, enrichPlan adesC3 = Except.ok p ∧ p.synth = [] ∧
      (check_treeview_exists p.outBytes).1 = false := by
  have hb : isOkE (enrichPlan adesC3) = true := by decide
  cases hok : enrichPlan adesC3 with
  | error e =>
    rw [hok] at hb
    exact Bool.noConfusion hb
  | ok p =>
    refine ⟨p, rfl, ?_, ?_⟩
    · have h1 : p.synth = planSynth adesC3 := by rw [planSynth, hok]
      rw [h1]
      decide
    · have h2 : p.outBytes = planOut adesC3 := by rw [planOut, hok]
      rw [h2]
      decide

/-- A snapshot whose header already carries a valid, populated treeview at
offset 0x500. -/
def adesT : Ades :=
  ⟨"snap.dat".toList,
   List.replicate 0x436 0 ++ le64 0x500 ++ List.replicate 0xC2 0
     ++ tvMagic ++ le32 3 ++ le32 0 ++ le32 28 ++ le32 28 ++ le32 28
     ++ List.replicate 200 0,
   [], [], [], []⟩

/-- Witness for the amended C3 theorem: on a file with a populated
treeview the run stops at the guard and the file store is untouched. -/
theorem c3_amended_witness :
    enrichPlan adesT = Except.error EStop.alreadyEnriched ∧
    enrichFS adesT (fun _ => none) = (fun _ => none) :=
  (c3_amended adesT (fun _ => none)).1 (by decide)

/-- C9 theorem.  Enrichment never touches the input file: the output name
differs from the input name (9 characters longer, `.enriched` inserted
before the final extension or appended), a successful run writes exactly
the output file, every other name — the input in particular — keeps its
bytes, and a stopped run writes nothing at all. -/
theorem c9_input_never_modified (ades : Ades)
    (fs : List Char → Option (List Nat)) :
    get_output_filename ades.fileName ≠ ades.fileName ∧
    (∀ p, enrichPlan ades = Except.ok p →
      p.outName = get_output_filename ades.fileName) ∧
    (∀ n, n ≠ get_output_filename ades.fileName → enrichFS ades fs n = fs n) ∧
    enrichFS ades fs ades.fileName = fs ades.fileName ∧
    (∀ e, enrichPlan ades = Except.error e → enrichFS ades fs = fs) := by
  have hname : ∀ p, enrichPlan ades = Except.ok p →
      p.outName = get_output_filename ades.fileName := by
    intro p hok
    obtain ⟨tvoff, synData, sections, hmk⟩ := enrichPlan_ok ades p hok
    exact (mkPlan_ok _ _ _ _ _ _ hmk).2.2.2.2.1
  have hframe : ∀ n, n ≠ get_output_filename ades.fileName →
      enrichFS ades fs n = fs n := by
    intro n hn
    rw [enrichFS]
    cases hok : enrichPlan ades with
    | error e => rfl
    | ok p =>
      show (if n = p.outName then some p.outBytes else fs n) = fs n
      rw [if_neg (by rw [hname p hok]; exact hn)]
  refine ⟨get_output_filename_ne _, hname, hframe, ?_, ?_⟩
  · exact hframe ades.fileName (fun h => get_output_filename_ne _ h.symm)
  · intro e he
    rw [enrichFS, he]

/-- Witness for C9 at a concrete snapshot and file store. -/
theorem c9_input_never_modified_witness :
    get_output_filename adesC3.fileName ≠ adesC3.fileName ∧
    (∀ p, enrichPlan adesC3 = Except.ok p →
      p.outName = get_output_filename adesC3.fileName) ∧
    (∀ n, n ≠ get_output_filename adesC3.fileName →
      enrichFS adesC3 (fun _ => none) n = (fun (_ : List Char) => none) n) ∧
    enrichFS adesC3 (fun _ => none) adesC3.fileName
      = (fun (_ : List Char) => none) adesC3.fileName ∧
    (∀ e, enrichPlan adesC3 = Except.error e →
      enrichFS adesC3 (fun _ => none) = (fun _ => none)) :=
  c9_input_never_modified adesC3 (fun _ => none)

/-- A snapshot whose domain NC has a cached grandchild `CN=z,OU=m,DC=a`
with its parent container missing: enrichment must synthesize `OU=m,DC=a`. -/
def adesX : Ades :=
  ⟨"snap.dat".toList, List.replicate 0x450 0, [0x440],
   [("DC=a".toList, 0), ("CN=z,OU=m,DC=a".toList, 0),
    ("CN=Configuration,DC=a".toList, 0),
    ("CN=x,CN=Configuration,DC=a".toList, 0),
    ("CN=Schema,CN=Configuration,DC=a".toList, 0),
    ("CN=y,CN=Schema,CN=Configuration,DC=a".toList, 0)],
   "DC=a".toList, [("distinguishedName".toList, 5)]⟩

/-- Witness for C10: a run that creates one synthetic container, applied
to the layout theorem with its bounds discharged concretely. -/
theorem c10_output_layout_witness :
    ∃ p, enrichPlan adesX = Except.ok p ∧ p.synth ≠ [] ∧
      readLE64 p.outBytes 0x436 = (p.tvoff + p.synth.length) % 2 ^ 64 ∧
      (p.outBytes.drop p.tvoff).take p.synth.length = p.synth ∧
      (p.outBytes.drop (p.tvoff + p.synth.length)).take
          (p.header.length + p.sections.flatten.length)
        = p.header ++ p.sections.flatten := by
  have hb : isOkE (enrichPlan adesX) = true := by decide
  cases hok : enrichPlan adesX with
  | error e =>
    rw [hok] at hb
    exact Bool.noConfusion hb
  | ok p =>
    have h1 : p.tvoff = planTvoff adesX := by rw [planTvoff, hok]
    have h2 : p.synth = planSynth adesX := by rw [planSynth, hok]
    have hne : p.synth ≠ [] := by rw [h2]; decide
    obtain ⟨ha, _⟩ := c10_output_layout adesX p hok (by rw [h1]; decide)
      (by rw [h1]; decide)
    obtain ⟨g1, g2, g3⟩ := ha hne
    exact ⟨p, rfl, hne, g1, g2, g3⟩
